import Mathlib

/-!
Shallow embedding of the TimeBars sequential timer-queue engine
(`scripts/timers.py`).

The Python engine is an `asyncio` coroutine (`TimerManager._run_loop`)
plus synchronous command methods (`add_timer`, `remove_timer`, `start`,
`pause`, `stop`, `clear_all`).  We model it as a deterministic
micro-step machine: the coroutine's control position is an explicit
program counter, each micro step executes the code between two points of
the loop, and commands may interleave only while the coroutine is parked
at a suspension point (an `await asyncio.sleep`), which is exactly the
cooperative-scheduling discipline of the source.  `stop()` cancels the
task, which we model by setting the program counter to `off`.

The loop variable `timer` of `_run_loop` is an alias of the head Timer
object; we model the alias by carrying the timer value in the program
counter and writing updates back into the queue entry with the same
`id` (ids are allocated from a counter, mirroring `uuid4` freshness).

Machine integers are modelled as `Int` (Python ints are unbounded) and
the float result of `Timer.progress` as an exact rational.
-/

namespace TimeBars

/-- The five members of the `TimerState` enum in `timers.py`. -/
inductive TimerState where
  | waiting
  | running
  | paused
  | alarm
  | complete
deriving DecidableEq

/-- The `Timer` dataclass: identity, label, total and remaining seconds,
alarm flag and lifecycle state. -/
structure Timer where
  id : Nat
  label : String
  duration_seconds : Int
  remaining_seconds : Int
  alarm_enabled : Bool
  state : TimerState
deriving DecidableEq

/-- The `Timer` dataclass constructor followed by `__post_init__`:
if the supplied `remaining_seconds` is `0` it is replaced by
`duration_seconds`. -/
def mkTimer (id : Nat) (label : String) (duration_seconds remaining_seconds : Int)
    (alarm_enabled : Bool) (state : TimerState) : Timer :=
  { id := id
    label := label
    duration_seconds := duration_seconds
    remaining_seconds := if remaining_seconds = 0 then duration_seconds else remaining_seconds
    alarm_enabled := alarm_enabled
    state := state }

/-- Round a rational to the nearest integer with ties to even — the
rounding applied to the scaled significand by IEEE-754 round-to-nearest. -/
def rnEven (q : Rat) : Int :=
  if Int.fract q < 1 / 2 then ⌊q⌋
  else if 1 / 2 < Int.fract q then ⌊q⌋ + 1
  else if 2 ∣ ⌊q⌋ then ⌊q⌋ else ⌊q⌋ + 1

/-- The exponent of the unit in the last place of the binary64 value
nearest to `x`: 52 bits below the leading bit for normal magnitudes,
clamped at `2 ^ (-1074)` in the subnormal range. -/
def ulpExp (x : Rat) : Int :=
  max (-1074) (Int.log 2 |x| - 52)

/-- The IEEE-754 binary64 value of a rational, as an exact rational:
round to nearest, ties to even, with gradual underflow.  Overflow is
not modelled — every value the progress computation produces under the
spec's precondition lies far inside the finite range. -/
def fRound (x : Rat) : Rat :=
  if x = 0 then 0 else (rnEven (x / 2 ^ ulpExp x) : Rat) * 2 ^ ulpExp x

/-- `Timer.progress`: `1.0` when `duration_seconds == 0`, otherwise the
Python float expression `1.0 - (remaining_seconds / duration_seconds)`:
the true division of the two ints is correctly rounded to binary64, and
so is the subtraction from the exact `1.0`. -/
def Timer.progress (t : Timer) : Rat :=
  if t.duration_seconds = 0 then 1
  else fRound (1 - fRound ((t.remaining_seconds : Rat) / (t.duration_seconds : Rat)))

/-- `Timer.reset`: restore the full countdown and the `WAITING` state. -/
def Timer.reset (t : Timer) : Timer :=
  { t with remaining_seconds := t.duration_seconds, state := TimerState.waiting }

/-- The callback events the engine emits (`on_tick`, `on_timer_complete`,
`on_alarm_start`, `on_alarm_end`, `on_queue_complete`,
`on_state_change`), each carrying the Timer snapshot passed to the
callback. -/
inductive Event where
  | tick (t : Timer)
  | timerComplete (t : Timer)
  | alarmStart (t : Timer)
  | alarmEnd (t : Timer)
  | queueComplete
  | stateChange
deriving DecidableEq

/-- Control position of the `_run_loop` coroutine.  `off` means no task
exists (never started, finished, or cancelled); `created` means the task
is created but has not yet run its first slice; the `...Sleep`
constructors are the three `await asyncio.sleep` suspension points, each
carrying the loop's local `timer` alias. -/
inductive PC where
  | off
  | created
  | atOuter
  | atInner (cur : Timer)
  | pausePollSleep (cur : Timer)
  | tickSleep (cur : Timer)
  | alarmSleep (cur : Timer)
  | atPop (cur : Timer)
deriving DecidableEq

/-- The `TimerManager` state: the timer queue `_timers`, the id
allocation counter (modelling `uuid4` freshness), the `_running` and
`_paused` flags, and the coroutine position (modelling `_task`). -/
structure Engine where
  timers : List Timer
  nextId : Nat
  running : Bool
  paused : Bool
  pc : PC
deriving DecidableEq

/-- A freshly constructed `TimerManager()`. -/
def initEngine : Engine :=
  { timers := [], nextId := 0, running := false, paused := false, pc := PC.off }

/-- Write an update of the loop's aliased `timer` object back into the
queue entry holding the same object (identified by `id`). -/
def writeBack (cur : Timer) (ts : List Timer) : List Timer :=
  ts.map fun u => if u.id = cur.id then cur else u

/-- Apply a field update to the timer alias carried by the program
counter, modelling a write through a shared object reference. -/
def PC.mapCur (f : Timer → Timer) : PC → PC
  | PC.atInner c => PC.atInner (f c)
  | PC.pausePollSleep c => PC.pausePollSleep (f c)
  | PC.tickSleep c => PC.tickSleep (f c)
  | PC.alarmSleep c => PC.alarmSleep (f c)
  | PC.atPop c => PC.atPop (f c)
  | pc => pc

/-- The timer alias carried by the program counter, if any. -/
def curOf : PC → Option Timer
  | PC.atInner c => some c
  | PC.pausePollSleep c => some c
  | PC.tickSleep c => some c
  | PC.alarmSleep c => some c
  | PC.atPop c => some c
  | _ => none

/-- Program-counter positions at which the coroutine is parked and user
commands may run: no task, a not-yet-started task, or one of the three
`await asyncio.sleep` calls. -/
def isSusp : PC → Bool
  | PC.off => true
  | PC.created => true
  | PC.pausePollSleep _ => true
  | PC.tickSleep _ => true
  | PC.alarmSleep _ => true
  | _ => false

/-- `TimerManager.add_timer`: append a fresh `WAITING` timer with
`remaining_seconds = duration_seconds` and notify. -/
def addTimer (label : String) (duration_seconds : Int) (alarm_enabled : Bool)
    (s : Engine) : Engine × List Event × Timer :=
  let t := mkTimer s.nextId label duration_seconds duration_seconds alarm_enabled
    TimerState.waiting
  ({ s with timers := s.timers ++ [t], nextId := s.nextId + 1 }, [Event.stateChange], t)

/-- The scan of `TimerManager.remove_timer`: drop the first timer whose
id matches, reporting whether a match was found. -/
def removeTimerList (id : Nat) : List Timer → List Timer × Bool
  | [] => ([], false)
  | t :: ts =>
    if t.id = id then (ts, true)
    else
      let r := removeTimerList id ts
      (t :: r.1, r.2)

/-- `TimerManager.remove_timer`: remove the first matching timer and
notify; report whether a match was found. -/
def removeTimer (id : Nat) (s : Engine) : Engine × List Event × Bool :=
  let r := removeTimerList id s.timers
  if r.2 then ({ s with timers := r.1 }, [Event.stateChange], true)
  else (s, [], false)

/-- `TimerManager.start`: fail on an empty queue; resume if paused;
fail if already running; otherwise set the running flag and create the
loop task. -/
def start (s : Engine) : Engine × List Event × Bool :=
  if s.timers = [] then (s, [], false)
  else if s.paused then ({ s with paused := false }, [Event.stateChange], true)
  else if s.running then (s, [], false)
  else ({ s with running := true, paused := false, pc := PC.created },
    [Event.stateChange], true)

/-- `TimerManager.pause`: fail unless running and not paused; set the
pause flag, mark the head timer `PAUSED` (a write through the shared
object, visible to the loop's alias), and notify. -/
def pause (s : Engine) : Engine × List Event × Bool :=
  if s.running = false ∨ s.paused = true then (s, [], false)
  else
    match s.timers with
    | [] => ({ s with paused := true }, [Event.stateChange], true)
    | h :: t =>
      let h' := { h with state := TimerState.paused }
      ({ s with
          paused := true
          timers := h' :: t
          pc := s.pc.mapCur fun c =>
            if c.id = h.id then { c with state := TimerState.paused } else c },
        [Event.stateChange], true)

/-- `TimerManager.stop`: clear both flags, cancel the loop task, reset
every queued timer, and notify. -/
def stop (s : Engine) : Engine × List Event :=
  ({ s with
      running := false
      paused := false
      pc := PC.off
      timers := s.timers.map Timer.reset },
    [Event.stateChange])

/-- `TimerManager.clear_all`: `stop()` then empty the queue and notify. -/
def clearAll (s : Engine) : Engine × List Event :=
  let r := stop s
  ({ r.1 with timers := [] }, r.2 ++ [Event.stateChange])

/-- The code after the outer `while` of `_run_loop`: clear the running
flag, emit the queue-complete event and a final state change, and let
the task finish. -/
def tailStep (s : Engine) : Engine × List Event :=
  ({ s with running := false, pc := PC.off }, [Event.queueComplete, Event.stateChange])

/-- The outer `while` header of `_run_loop`: if still running and the
queue is non-empty, take the head as the current timer, mark it
`RUNNING` and notify; otherwise fall through to the tail. -/
def outerStep (s : Engine) : Engine × List Event :=
  match s.timers with
  | [] => tailStep s
  | h :: t =>
    if s.running then
      let cur := { h with state := TimerState.running }
      ({ s with timers := cur :: t, pc := PC.atInner cur }, [Event.stateChange])
    else tailStep s

/-- The completion section of `_run_loop`: mark the current timer
`COMPLETE`, emit the timer-complete event, and either enter the alarm
phase (mark `ALARM`, notify, emit alarm-start, sleep 5 s) or proceed to
the removal step. -/
def completeStep (s : Engine) (cur : Timer) : Engine × List Event :=
  let cur1 := { cur with state := TimerState.complete }
  let s1 := { s with timers := writeBack cur1 s.timers }
  if cur1.alarm_enabled then
    let cur2 := { cur1 with state := TimerState.alarm }
    ({ s1 with timers := writeBack cur2 s1.timers, pc := PC.alarmSleep cur2 },
      [Event.timerComplete cur1, Event.stateChange, Event.alarmStart cur2])
  else
    ({ s1 with pc := PC.atPop cur1 }, [Event.timerComplete cur1])

/-- The inner `while` header of `_run_loop`: with time left and the
engine running, suspend in the pause-poll sleep or the one-second tick
sleep; on loop exit, `break` to the tail when no longer running, else
run the completion section. -/
def innerStep (s : Engine) (cur : Timer) : Engine × List Event :=
  if 0 < cur.remaining_seconds ∧ s.running = true then
    if s.paused then ({ s with pc := PC.pausePollSleep cur }, [])
    else ({ s with pc := PC.tickSleep cur }, [])
  else if s.running = false then tailStep s
  else completeStep s cur

/-- Resuming from the one-second sleep: if still running and not
paused, decrement the current timer (through the shared object) and
emit a tick carrying it; in either case return to the inner `while`
header. -/
def tickResume (s : Engine) (cur : Timer) : Engine × List Event :=
  if s.paused = false ∧ s.running = true then
    let cur' := { cur with remaining_seconds := cur.remaining_seconds - 1 }
    ({ s with timers := writeBack cur' s.timers, pc := PC.atInner cur' },
      [Event.tick cur'])
  else ({ s with pc := PC.atInner cur }, [])

/-- The removal step of `_run_loop`: pop the queue head only when it is
still the timer the loop just finished, then notify and return to the
outer `while` header. -/
def popStep (s : Engine) (cur : Timer) : Engine × List Event :=
  let ts :=
    match s.timers with
    | [] => ([] : List Timer)
    | h :: t => if h.id = cur.id then t else h :: t
  ({ s with timers := ts, pc := PC.atOuter }, [Event.stateChange])

/-- Resuming from the five-second alarm sleep: emit the alarm-end event
and proceed to the removal step. -/
def alarmResume (s : Engine) (cur : Timer) : Engine × List Event :=
  ({ s with pc := PC.atPop cur }, [Event.alarmEnd cur])

/-- One micro step of the `_run_loop` coroutine: the code executed
between two consecutive control positions.  `none` when no task exists. -/
def microStep (s : Engine) : Option (Engine × List Event) :=
  match s.pc with
  | PC.off => none
  | PC.created => some (outerStep s)
  | PC.atOuter => some (outerStep s)
  | PC.atInner cur => some (innerStep s cur)
  | PC.pausePollSleep cur => some ({ s with pc := PC.atInner cur }, [])
  | PC.tickSleep cur => some (tickResume s cur)
  | PC.alarmSleep cur => some (alarmResume s cur)
  | PC.atPop cur => some (popStep s cur)

/-- Run the coroutine for at most `fuel` micro steps with no command
interleaved, concatenating the emitted events. -/
def drain : Nat → Engine → Engine × List Event
  | 0, s => (s, [])
  | fuel + 1, s =>
    match microStep s with
    | none => (s, [])
    | some (s', es) =>
      let r := drain fuel s'
      (r.1, es ++ r.2)

/-- States reachable from a fresh `TimerManager` by coroutine micro
steps and by commands issued while the coroutine is parked at a
suspension point. -/
inductive Reach : Engine → Prop where
  | init : Reach initEngine
  | micro {s s' : Engine} {es : List Event} :
      Reach s → microStep s = some (s', es) → Reach s'
  | cadd {s : Engine} (label : String) (d : Int) (al : Bool) :
      Reach s → isSusp s.pc = true → Reach (addTimer label d al s).1
  | cremove {s : Engine} (id : Nat) :
      Reach s → isSusp s.pc = true → Reach (removeTimer id s).1
  | cstart {s : Engine} :
      Reach s → isSusp s.pc = true → Reach (start s).1
  | cpause {s : Engine} :
      Reach s → isSusp s.pc = true → Reach (pause s).1
  | cstop {s : Engine} :
      Reach s → isSusp s.pc = true → Reach (stop s).1
  | cclear {s : Engine} :
      Reach s → isSusp s.pc = true → Reach (clearAll s).1

/-- Countdown bounds for a single timer: `remaining_seconds` never
exceeds `duration_seconds`, and is nonnegative whenever the duration
is. -/
def TimerOK (t : Timer) : Prop :=
  t.remaining_seconds ≤ t.duration_seconds ∧
    (0 ≤ t.duration_seconds → 0 ≤ t.remaining_seconds)

/-- The engine invariant maintained by every command and micro step. -/
structure Inv (s : Engine) : Prop where
  ok_queue : ∀ t ∈ s.timers, TimerOK t
  id_queue : ∀ t ∈ s.timers, t.id < s.nextId
  ids_nodup : (s.timers.map Timer.id).Nodup
  tail_wait : ∀ t ∈ s.timers.tail, t.state = TimerState.waiting
  ok_cur : ∀ cur, curOf s.pc = some cur →
    TimerOK cur ∧ cur.id < s.nextId ∧ ∀ t ∈ s.timers.tail, t.id ≠ cur.id
  tick_pos : ∀ cur, s.pc = PC.tickSleep cur → 0 < cur.remaining_seconds
  run_pc : s.pc ≠ PC.off → s.running = true

/-- The loop's timer alias agrees with its queue entry: any queued
timer sharing the alias's `id` is the very same value (they model one
Python object). -/
def CurSync (s : Engine) : Prop :=
  ∀ cur, curOf s.pc = some cur → ∀ t ∈ s.timers, t.id = cur.id → t = cur

/-- Recognizer for tick events. -/
def isTick : Event → Bool
  | Event.tick _ => true
  | _ => false

/-- Recognizer for timer-complete events. -/
def isCompleteEv : Event → Bool
  | Event.timerComplete _ => true
  | _ => false

/-- Recognizer for alarm-start and alarm-end events. -/
def isAlarmEv : Event → Bool
  | Event.alarmStart _ => true
  | Event.alarmEnd _ => true
  | _ => false

/-- Recognizer for queue-complete events. -/
def isQueueCompleteEv : Event → Bool
  | Event.queueComplete => true
  | _ => false

/-- The engine after `add_timer("Timer", d, alarm_enabled=False)` and
`start()` on a fresh manager. -/
def c3Engine (d : Int) : Engine :=
  (start (addTimer "Timer" d false initEngine).1).1

/-- The snapshot passed to `on_tick` in the C3 scenario when
`remaining_seconds` has just reached `r`. -/
def c3Tick (d : Int) (r : Int) : Timer :=
  { id := 0, label := "Timer", duration_seconds := d, remaining_seconds := r,
    alarm_enabled := false, state := TimerState.running }

/-- The snapshot passed to `on_timer_complete` in the C3 scenario. -/
def c3Done (d : Int) : Timer :=
  { id := 0, label := "Timer", duration_seconds := d, remaining_seconds := 0,
    alarm_enabled := false, state := TimerState.complete }

/-- The tick events of a full C3 countdown from `k` remaining, in
emission order. -/
def tickTrace (d : Int) : Nat → List Event
  | 0 => []
  | k + 1 => Event.tick (c3Tick d k) :: tickTrace d k

/-- The events from the first tick to task exit in the C3 scenario. -/
def finTrace (d : Int) (k : Nat) : List Event :=
  tickTrace d k ++
    [Event.timerComplete (c3Done d), Event.stateChange, Event.queueComplete,
      Event.stateChange]

/-- The engine parked in the one-second sleep of the C3 scenario with
`r` seconds remaining. -/
def midState (d : Int) (r : Int) : Engine :=
  { timers := [c3Tick d r], nextId := 1, running := true, paused := false,
    pc := PC.tickSleep (c3Tick d r) }

/-- The engine after the C3 scenario's task exits. -/
def endEngine : Engine :=
  { timers := [], nextId := 1, running := false, paused := false, pc := PC.off }

/-- A running single-timer engine of the C3 scenario at control
position `p`. -/
def oneT (t : Timer) (p : PC) : Engine :=
  { timers := [t], nextId := 1, running := true, paused := false, pc := p }

/-- The C3 scenario engine after the completed timer was popped, back
at the outer loop header with an empty queue. -/
def emptyRun : Engine :=
  { timers := [], nextId := 1, running := true, paused := false, pc := PC.atOuter }

/-- The freshly added waiting timer of the C3 scenario. -/
def c3T0 (d : Int) : Timer :=
  { id := 0, label := "Timer", duration_seconds := d, remaining_seconds := d,
    alarm_enabled := false, state := TimerState.waiting }

/-! ## Basic lemmas about the list helpers -/

theorem map_id_of_eq {f : Timer → Timer} {l : List Timer} (h : ∀ x ∈ l, f x = x) :
    l.map f = l := by
  induction l with
  | nil => rfl
  | cons a l ih =>
    simp only [List.map_cons]
    rw [h a (by simp), ih fun x hx => h x (by simp [hx])]

theorem writeBack_map_id (cur : Timer) (ts : List Timer) :
    (writeBack cur ts).map Timer.id = ts.map Timer.id := by
  induction ts with
  | nil => rfl
  | cons a l ih =>
    simp only [writeBack, List.map_cons] at ih ⊢
    by_cases hid : a.id = cur.id
    · simp [hid, ih]
    · simp [hid, ih]

theorem mem_writeBack {cur t : Timer} {ts : List Timer} (h : t ∈ writeBack cur ts) :
    t = cur ∨ t ∈ ts := by
  simp only [writeBack, List.mem_map] at h
  obtain ⟨u, hu, he⟩ := h
  by_cases hid : u.id = cur.id
  · rw [if_pos hid] at he; exact Or.inl he.symm
  · rw [if_neg hid] at he; exact Or.inr (he ▸ hu)

theorem writeBack_cons (cur a : Timer) (l : List Timer) :
    writeBack cur (a :: l) =
      (if a.id = cur.id then cur else a) :: writeBack cur l := by
  simp [writeBack]

theorem mem_writeBack_strong {cur t : Timer} {ts : List Timer}
    (h : t ∈ writeBack cur ts) :
    (t = cur ∧ ∃ u ∈ ts, u.id = cur.id) ∨ t ∈ ts := by
  simp only [writeBack, List.mem_map] at h
  obtain ⟨u, hu, he⟩ := h
  by_cases hid : u.id = cur.id
  · rw [if_pos hid] at he
    exact Or.inl ⟨he.symm, u, hu, hid⟩
  · rw [if_neg hid] at he
    exact Or.inr (he ▸ hu)

theorem mem_writeBack_id {cur t : Timer} {ts : List Timer} (h : t ∈ writeBack cur ts)
    (hid : t.id = cur.id) : t = cur := by
  induction ts with
  | nil => simp [writeBack] at h
  | cons a l ih =>
    rw [writeBack_cons] at h
    rcases List.mem_cons.mp h with he | h
    · by_cases ha : a.id = cur.id
      · rwa [if_pos ha] at he
      · rw [if_neg ha] at he
        exact absurd (he ▸ hid) ha
    · exact ih h

theorem writeBack_tail_eq {cur : Timer} {ts : List Timer}
    (h : ∀ t ∈ ts.tail, t.id ≠ cur.id) :
    (writeBack cur ts).tail = ts.tail := by
  cases ts with
  | nil => rfl
  | cons a l =>
    simp only [writeBack, List.map_cons, List.tail_cons] at h ⊢
    exact map_id_of_eq fun x hx => if_neg (h x hx)

theorem removeTimerList_sublist (id : Nat) (ts : List Timer) :
    (removeTimerList id ts).1.Sublist ts := by
  induction ts with
  | nil => simp [removeTimerList]
  | cons a l ih =>
    simp only [removeTimerList]
    by_cases hid : a.id = id
    · simp [hid]
    · simpa [hid] using ih.cons₂ a

theorem removeTimerList_tail_sub (id : Nat) (ts : List Timer) :
    ∀ x ∈ (removeTimerList id ts).1.tail, x ∈ ts.tail := by
  cases ts with
  | nil => simp [removeTimerList]
  | cons a l =>
    simp only [removeTimerList]
    by_cases hid : a.id = id
    · simp only [hid, if_pos rfl, List.tail_cons]
      exact fun x hx => List.mem_of_mem_tail hx
    · simp only [if_neg hid, List.tail_cons]
      exact fun x hx => (removeTimerList_sublist id l).subset hx

theorem removeTimerList_found_iff (id : Nat) (ts : List Timer) :
    (removeTimerList id ts).2 = true ↔ ∃ t ∈ ts, t.id = id := by
  induction ts with
  | nil => simp [removeTimerList]
  | cons a l ih =>
    simp only [removeTimerList]
    by_cases hid : a.id = id
    · simp [hid]
    · simp only [if_neg hid, ih, List.mem_cons]
      constructor
      · rintro ⟨t, ht, rfl⟩; exact ⟨t, Or.inr ht, rfl⟩
      · rintro ⟨t, (rfl | ht), rfl⟩
        · exact absurd rfl hid
        · exact ⟨t, ht, rfl⟩

theorem removeTimerList_not_found {id : Nat} {ts : List Timer}
    (h : (removeTimerList id ts).2 = false) : (removeTimerList id ts).1 = ts := by
  induction ts with
  | nil => rfl
  | cons a l ih =>
    simp only [removeTimerList] at h ⊢
    by_cases hid : a.id = id
    · simp [hid] at h
    · simp only [if_neg hid] at h ⊢
      rw [ih h]

theorem removeTimerList_found {id : Nat} {ts : List Timer}
    (h : (removeTimerList id ts).2 = true) :
    ∃ pre t post, ts = pre ++ t :: post ∧ t.id = id ∧ (∀ u ∈ pre, u.id ≠ id) ∧
      (removeTimerList id ts).1 = pre ++ post := by
  induction ts with
  | nil => simp [removeTimerList] at h
  | cons a l ih =>
    by_cases hid : a.id = id
    · exact ⟨[], a, l, by simp, hid, by simp, by simp [removeTimerList, hid]⟩
    · simp only [removeTimerList, if_neg hid] at h
      obtain ⟨pre, t, post, hl, hti, hpre, hres⟩ := ih h
      refine ⟨a :: pre, t, post, by simp [hl], hti, ?_, ?_⟩
      · intro u hu
        rcases List.mem_cons.mp hu with rfl | hu
        · exact hid
        · exact hpre u hu
      · simp [removeTimerList, if_neg hid, hres]

/-! ## Small facts about program counters and timers -/

theorem curOf_mapCur (f : Timer → Timer) (pc : PC) :
    curOf (PC.mapCur f pc) = (curOf pc).map f := by
  cases pc <;> rfl

theorem mapCur_eq_tickSleep {f : Timer → Timer} {pc : PC} {c' : Timer}
    (h : PC.mapCur f pc = PC.tickSleep c') : ∃ c, pc = PC.tickSleep c ∧ c' = f c := by
  cases pc <;> simp [PC.mapCur] at h
  case tickSleep c => exact ⟨c, rfl, h.symm⟩

theorem mapCur_eq_off {f : Timer → Timer} {pc : PC} :
    PC.mapCur f pc = PC.off ↔ pc = PC.off := by
  cases pc <;> simp [PC.mapCur]

theorem timerOK_set_state (t : Timer) (st : TimerState) :
    TimerOK { t with state := st } ↔ TimerOK t := Iff.rfl

theorem timerOK_reset (t : Timer) : TimerOK (Timer.reset t) :=
  ⟨le_refl _, fun h => h⟩

/-! ## Branch equations for the commands -/

theorem start_empty {s : Engine} (h : s.timers = []) : start s = (s, [], false) := by
  simp [start, h]

theorem start_resume {s : Engine} (h : s.timers ≠ []) (hp : s.paused = true) :
    start s = ({ s with paused := false }, [Event.stateChange], true) := by
  simp [start, h, hp]

theorem start_already {s : Engine} (h : s.timers ≠ []) (hp : s.paused = false)
    (hr : s.running = true) : start s = (s, [], false) := by
  simp [start, h, hp, hr]

theorem start_fresh {s : Engine} (h : s.timers ≠ []) (hp : s.paused = false)
    (hr : s.running = false) :
    start s = ({ s with running := true, paused := false, pc := PC.created },
      [Event.stateChange], true) := by
  simp [start, h, hp, hr]

theorem pause_fail {s : Engine} (h : s.running = false ∨ s.paused = true) :
    pause s = (s, [], false) := by
  simp [pause, h]

theorem pause_nohead {s : Engine} (hr : s.running = true) (hp : s.paused = false)
    (ht : s.timers = []) :
    pause s = ({ s with paused := true }, [Event.stateChange], true) := by
  simp [pause, hr, hp, ht]

theorem pause_head {s : Engine} {h0 : Timer} {t0 : List Timer} (hr : s.running = true)
    (hp : s.paused = false) (ht : s.timers = h0 :: t0) :
    pause s =
      ({ s with
          paused := true
          timers := { h0 with state := TimerState.paused } :: t0
          pc := s.pc.mapCur fun c =>
            if c.id = h0.id then { c with state := TimerState.paused } else c },
        [Event.stateChange], true) := by
  simp [pause, hr, hp, ht]

/-! ## The invariant is preserved by every command -/

theorem inv_addTimer (lbl : String) (d : Int) (al : Bool) {s : Engine} (h : Inv s) :
    Inv (addTimer lbl d al s).1 := by
  have htOK : TimerOK (mkTimer s.nextId lbl d d al TimerState.waiting) := by
    refine ⟨?_, ?_⟩ <;> simp only [mkTimer] <;> split <;> omega
  constructor
  · intro u hu
    rcases List.mem_append.mp hu with hu | hu
    · exact h.ok_queue u hu
    · rcases List.mem_singleton.mp hu with rfl
      exact htOK
  · intro u hu
    rcases List.mem_append.mp hu with hu | hu
    · exact Nat.lt_succ_of_lt (h.id_queue u hu)
    · rcases List.mem_singleton.mp hu with rfl
      exact Nat.lt_succ_self _
  · simp only [addTimer, List.map_append, List.map_cons, List.map_nil]
    refine List.Nodup.append h.ids_nodup (List.nodup_singleton _) ?_
    intro x hx hx'
    rcases List.mem_singleton.mp hx' with rfl
    rcases List.mem_map.mp hx with ⟨u, hu, he⟩
    have := h.id_queue u hu
    simp only [mkTimer] at he
    omega
  · intro u hu
    rcases ht : s.timers with _ | ⟨h0, t0⟩
    · simp only [addTimer, ht, List.nil_append, List.tail_cons] at hu
      simp at hu
    · simp only [addTimer, ht, List.cons_append, List.tail_cons] at hu
      rcases List.mem_append.mp hu with hu | hu
      · exact h.tail_wait u (by simp [ht, hu])
      · rcases List.mem_singleton.mp hu with rfl
        simp [mkTimer]
  · intro cur hcur
    obtain ⟨h1, h2, h3⟩ := h.ok_cur cur hcur
    refine ⟨h1, Nat.lt_succ_of_lt h2, ?_⟩
    intro u hu
    rcases ht : s.timers with _ | ⟨h0, t0⟩
    · simp only [addTimer, ht, List.nil_append, List.tail_cons] at hu
      simp at hu
    · simp only [addTimer, ht, List.cons_append, List.tail_cons] at hu
      rcases List.mem_append.mp hu with hu | hu
      · exact h3 u (by simp [ht, hu])
      · rcases List.mem_singleton.mp hu with rfl
        simp only [mkTimer]
        omega
  · exact fun cur hcur => h.tick_pos cur hcur
  · exact fun hpc => h.run_pc hpc

theorem inv_removeTimer (id : Nat) {s : Engine} (h : Inv s) :
    Inv (removeTimer id s).1 := by
  by_cases hf : (removeTimerList id s.timers).2 = true
  · have hsub := removeTimerList_sublist id s.timers
    simp only [removeTimer, hf, if_pos]
    constructor
    · exact fun u hu => h.ok_queue u (hsub.subset hu)
    · exact fun u hu => h.id_queue u (hsub.subset hu)
    · exact h.ids_nodup.sublist (hsub.map Timer.id)
    · exact fun u hu => h.tail_wait u (removeTimerList_tail_sub id s.timers u hu)
    · intro cur hcur
      obtain ⟨h1, h2, h3⟩ := h.ok_cur cur hcur
      exact ⟨h1, h2, fun u hu => h3 u (removeTimerList_tail_sub id s.timers u hu)⟩
    · exact fun cur hcur => h.tick_pos cur hcur
    · exact fun hpc => h.run_pc hpc
  · simp only [removeTimer, hf, if_neg, Bool.not_eq_true]
    simpa using h

theorem inv_start {s : Engine} (h : Inv s) : Inv (start s).1 := by
  by_cases he : s.timers = []
  · simpa [start, he] using h
  · by_cases hp : s.paused = true
    · simp only [start, he, hp, if_neg, if_pos, if_true]
      exact ⟨h.ok_queue, h.id_queue, h.ids_nodup, h.tail_wait, h.ok_cur, h.tick_pos,
        h.run_pc⟩
    · by_cases hr : s.running = true
      · simpa [start, he, hp, hr] using h
      · simp only [start, he, hp, hr, if_neg, if_pos]
        refine ⟨h.ok_queue, h.id_queue, h.ids_nodup, h.tail_wait, ?_, ?_, ?_⟩
        · intro cur hcur
          simp [curOf] at hcur
        · intro cur hcur
          simp at hcur
        · intro _
          rfl

theorem inv_pause {s : Engine} (h : Inv s) : Inv (pause s).1 := by
  by_cases hc : s.running = false ∨ s.paused = true
  · simpa [pause_fail hc] using h
  · push_neg at hc
    obtain ⟨hr0, hp0⟩ := hc
    have hr : s.running = true := by revert hr0; cases s.running <;> simp
    have hp : s.paused = false := by revert hp0; cases s.paused <;> simp
    rcases ht : s.timers with _ | ⟨h0, t0⟩
    · rw [pause_nohead hr hp ht]
      exact ⟨by simp [ht], by simp [ht], by simp [ht], by simp [ht],
        fun cur hcur => by
          obtain ⟨h1, h2, _⟩ := h.ok_cur cur hcur
          exact ⟨h1, h2, by simp [ht]⟩,
        fun cur hcur => h.tick_pos cur hcur,
        fun hpc => h.run_pc hpc⟩
    · rw [pause_head hr hp ht]
      constructor
      · intro u hu
        rcases List.mem_cons.mp hu with rfl | hu
        · exact (timerOK_set_state h0 TimerState.paused).mpr
            (h.ok_queue h0 (by simp [ht]))
        · exact h.ok_queue u (by simp [ht, hu])
      · intro u hu
        rcases List.mem_cons.mp hu with rfl | hu
        · exact h.id_queue h0 (by simp [ht])
        · exact h.id_queue u (by simp [ht, hu])
      · have := h.ids_nodup
        rw [ht] at this
        simpa using this
      · intro u hu
        simp only [List.tail_cons] at hu
        exact h.tail_wait u (by simp [ht, hu])
      · intro cur hcur
        rw [curOf_mapCur] at hcur
        rcases ho : curOf s.pc with _ | c
        · simp [ho] at hcur
        · rw [ho] at hcur
          simp only [Option.map_some'] at hcur
          obtain ⟨h1, h2, h3⟩ := h.ok_cur c ho
          rcases Option.some_injective _ hcur with rfl
          have hgid : (if c.id = h0.id then { c with state := TimerState.paused }
              else c).id = c.id := by split <;> rfl
          have hgOK : TimerOK (if c.id = h0.id then { c with state := TimerState.paused }
              else c) := by
            split
            · exact (timerOK_set_state c TimerState.paused).mpr h1
            · exact h1
          refine ⟨hgOK, ?_, ?_⟩
          · rw [hgid]; exact h2
          · intro u hu
            simp only [List.tail_cons] at hu
            rw [hgid]
            exact h3 u (by simp [ht, hu])
      · intro cur hcur
        obtain ⟨c, hpc, rfl⟩ := mapCur_eq_tickSleep hcur
        have := h.tick_pos c hpc
        by_cases hid : c.id = h0.id <;> simp [hid] <;> omega
      · intro hpc
        simp only [ne_eq, mapCur_eq_off] at hpc
        exact h.run_pc hpc

theorem inv_stop {s : Engine} (h : Inv s) : Inv (stop s).1 := by
  constructor
  · intro u hu
    rcases List.mem_map.mp hu with ⟨v, _, rfl⟩
    exact timerOK_reset v
  · intro u hu
    rcases List.mem_map.mp hu with ⟨v, hv, rfl⟩
    exact h.id_queue v hv
  · have : (s.timers.map Timer.reset).map Timer.id = s.timers.map Timer.id := by
      rw [List.map_map]
      exact List.map_congr_left fun u _ => rfl
    simpa [stop, this] using h.ids_nodup
  · intro u hu
    rcases ht : s.timers with _ | ⟨h0, t0⟩
    · simp [stop, ht] at hu
    · simp only [stop, ht, List.map_cons, List.tail_cons] at hu
      rcases List.mem_map.mp hu with ⟨v, _, rfl⟩
      simp [Timer.reset]
  · intro cur hcur
    simp [stop, curOf] at hcur
  · intro cur hcur
    simp [stop] at hcur
  · intro hpc
    simp [stop] at hpc

theorem inv_clearAll {s : Engine} (h : Inv s) : Inv (clearAll s).1 := by
  have h1 := inv_stop h
  exact ⟨by simp [clearAll], by simp [clearAll], by simp [clearAll],
    by simp [clearAll], fun cur hcur => by simp [clearAll, stop, curOf] at hcur,
    fun cur hcur => by simp [clearAll, stop] at hcur,
    fun hpc => by simp [clearAll, stop] at hpc⟩

/-! ## The invariant is preserved by every micro step -/

theorem inv_writeBack {s : Engine} (h : Inv s) {cur' : Timer} (hOK : TimerOK cur')
    (hid : cur'.id < s.nextId) (htl : ∀ t ∈ s.timers.tail, t.id ≠ cur'.id) :
    (∀ t ∈ writeBack cur' s.timers, TimerOK t) ∧
      (∀ t ∈ writeBack cur' s.timers, t.id < s.nextId) ∧
      ((writeBack cur' s.timers).map Timer.id).Nodup ∧
      (∀ t ∈ (writeBack cur' s.timers).tail, t.state = TimerState.waiting) ∧
      (∀ t ∈ (writeBack cur' s.timers).tail, t.id ≠ cur'.id) := by
  have hteq := writeBack_tail_eq htl
  refine ⟨?_, ?_, ?_, ?_, ?_⟩
  · intro t ht
    rcases mem_writeBack ht with rfl | ht
    · exact hOK
    · exact h.ok_queue t ht
  · intro t ht
    rcases mem_writeBack ht with rfl | ht
    · exact hid
    · exact h.id_queue t ht
  · rw [writeBack_map_id]
    exact h.ids_nodup
  · intro t ht
    rw [hteq] at ht
    exact h.tail_wait t ht
  · intro t ht
    rw [hteq] at ht
    exact htl t ht

theorem outerStep_nil {s : Engine} (ht : s.timers = []) : outerStep s = tailStep s := by
  simp [outerStep, ht]

theorem outerStep_stopped {s : Engine} (hr : s.running = false) :
    outerStep s = tailStep s := by
  rcases ht : s.timers with _ | ⟨h0, t0⟩ <;> simp [outerStep, ht, hr]

theorem outerStep_head {s : Engine} {h0 : Timer} {t0 : List Timer}
    (ht : s.timers = h0 :: t0) (hr : s.running = true) :
    outerStep s =
      ({ s with
          timers := { h0 with state := TimerState.running } :: t0
          pc := PC.atInner ({ h0 with state := TimerState.running }) },
        [Event.stateChange]) := by
  simp [outerStep, ht, hr]

theorem innerStep_poll {s : Engine} {cur : Timer} (hrem : 0 < cur.remaining_seconds)
    (hr : s.running = true) (hp : s.paused = true) :
    innerStep s cur = ({ s with pc := PC.pausePollSleep cur }, []) := by
  simp [innerStep, hrem, hr, hp]

theorem innerStep_sleep {s : Engine} {cur : Timer} (hrem : 0 < cur.remaining_seconds)
    (hr : s.running = true) (hp : s.paused = false) :
    innerStep s cur = ({ s with pc := PC.tickSleep cur }, []) := by
  simp [innerStep, hrem, hr, hp]

theorem innerStep_break {s : Engine} {cur : Timer} (hr : s.running = false) :
    innerStep s cur = tailStep s := by
  simp [innerStep, hr]

theorem innerStep_done {s : Engine} {cur : Timer} (hrem : ¬ 0 < cur.remaining_seconds)
    (hr : s.running = true) : innerStep s cur = completeStep s cur := by
  simp [innerStep, hrem, hr]

theorem tickResume_tick {s : Engine} {cur : Timer} (hp : s.paused = false)
    (hr : s.running = true) :
    tickResume s cur =
      ({ s with
          timers := writeBack ({ cur with
            remaining_seconds := cur.remaining_seconds - 1 }) s.timers
          pc := PC.atInner ({ cur with
            remaining_seconds := cur.remaining_seconds - 1 }) },
        [Event.tick ({ cur with remaining_seconds := cur.remaining_seconds - 1 })]) := by
  simp [tickResume, hp, hr]

theorem tickResume_skip {s : Engine} {cur : Timer}
    (hc : ¬ (s.paused = false ∧ s.running = true)) :
    tickResume s cur = ({ s with pc := PC.atInner cur }, []) := by
  simp only [tickResume, if_neg hc]

theorem popStep_nil {s : Engine} {cur : Timer} (ht : s.timers = []) :
    popStep s cur = ({ s with timers := [], pc := PC.atOuter }, [Event.stateChange]) := by
  simp [popStep, ht]

theorem popStep_hit {s : Engine} {cur h0 : Timer} {t0 : List Timer}
    (ht : s.timers = h0 :: t0) (hid : h0.id = cur.id) :
    popStep s cur = ({ s with timers := t0, pc := PC.atOuter }, [Event.stateChange]) := by
  simp [popStep, ht, hid]

theorem popStep_miss {s : Engine} {cur h0 : Timer} {t0 : List Timer}
    (ht : s.timers = h0 :: t0) (hid : ¬ h0.id = cur.id) :
    popStep s cur =
      ({ s with timers := h0 :: t0, pc := PC.atOuter }, [Event.stateChange]) := by
  simp [popStep, ht, hid]

theorem inv_tailStep {s : Engine} (h : Inv s) : Inv (tailStep s).1 := by
  refine ⟨h.ok_queue, h.id_queue, h.ids_nodup, h.tail_wait, ?_, ?_, ?_⟩
  · intro cur hcur
    simp [tailStep, curOf] at hcur
  · intro cur hcur
    simp [tailStep] at hcur
  · intro hpc
    simp [tailStep] at hpc

theorem inv_outerStep {s : Engine} (h : Inv s) : Inv (outerStep s).1 := by
  rcases ht : s.timers with _ | ⟨h0, t0⟩
  · simp only [outerStep, ht]
    exact inv_tailStep h
  · by_cases hr : s.running = true
    · simp only [outerStep, ht, hr, if_pos]
      have h0mem : h0 ∈ s.timers := by simp [ht]
      have h0OK := h.ok_queue h0 h0mem
      have h0id := h.id_queue h0 h0mem
      have h0tl : ∀ t ∈ t0, t.id ≠ h0.id := by
        have := h.ids_nodup
        rw [ht] at this
        simp only [List.map_cons, List.nodup_cons] at this
        intro t htt he
        exact this.1 (he ▸ List.mem_map_of_mem Timer.id htt)
      constructor
      · intro u hu
        rcases List.mem_cons.mp hu with rfl | hu
        · exact (timerOK_set_state h0 TimerState.running).mpr h0OK
        · exact h.ok_queue u (by simp [ht, hu])
      · intro u hu
        rcases List.mem_cons.mp hu with rfl | hu
        · exact h0id
        · exact h.id_queue u (by simp [ht, hu])
      · have := h.ids_nodup
        rw [ht] at this
        simpa using this
      · intro u hu
        simp only [List.tail_cons] at hu
        exact h.tail_wait u (by simp [ht, hu])
      · intro cur hcur
        simp only [curOf, Option.some.injEq] at hcur
        subst hcur
        refine ⟨(timerOK_set_state h0 TimerState.running).mpr h0OK, h0id, ?_⟩
        intro u hu
        simp only [List.tail_cons] at hu
        exact h0tl u hu
      · intro cur hcur
        simp at hcur
      · intro _
        rfl
    · simp only [outerStep, ht, hr, if_neg, Bool.not_eq_true]
      exact inv_tailStep h

theorem writeBack_writeBack {c1 c2 : Timer} (h : c1.id = c2.id) (ts : List Timer) :
    writeBack c2 (writeBack c1 ts) = writeBack c2 ts := by
  induction ts with
  | nil => rfl
  | cons a l ih =>
    by_cases hid : a.id = c1.id
    · rw [writeBack_cons c1 a l, if_pos hid, writeBack_cons c2 c1, if_pos h,
        writeBack_cons c2 a l, if_pos (hid.trans h), ih]
    · rw [writeBack_cons c1 a l, if_neg hid, writeBack_cons c2 a, writeBack_cons c2 a l,
        ih]

theorem completeStep_alarm {s : Engine} {cur : Timer} (hal : cur.alarm_enabled = true) :
    completeStep s cur =
      ({ s with
          timers := writeBack ({ cur with state := TimerState.alarm }) s.timers
          pc := PC.alarmSleep ({ cur with state := TimerState.alarm }) },
        [Event.timerComplete ({ cur with state := TimerState.complete }),
          Event.stateChange,
          Event.alarmStart ({ cur with state := TimerState.alarm })]) := by
  simp only [completeStep]
  rw [if_pos (show ({ cur with state := TimerState.complete } : Timer).alarm_enabled = true
    from hal)]
  rw [writeBack_writeBack (show ({ cur with state := TimerState.complete } : Timer).id =
    ({ cur with state := TimerState.alarm } : Timer).id from rfl)]

theorem completeStep_noalarm {s : Engine} {cur : Timer}
    (hal : cur.alarm_enabled = false) :
    completeStep s cur =
      ({ s with
          timers := writeBack ({ cur with state := TimerState.complete }) s.timers
          pc := PC.atPop ({ cur with state := TimerState.complete }) },
        [Event.timerComplete ({ cur with state := TimerState.complete })]) := by
  simp [completeStep, hal]

theorem inv_completeStep {s : Engine} {cur : Timer} (h : Inv s) (hOK : TimerOK cur)
    (hid : cur.id < s.nextId) (htl : ∀ t ∈ s.timers.tail, t.id ≠ cur.id)
    (hr : s.running = true) : Inv (completeStep s cur).1 := by
  by_cases hal : cur.alarm_enabled = true
  · rw [completeStep_alarm hal]
    have hOK2 : TimerOK { cur with state := TimerState.alarm } :=
      (timerOK_set_state cur TimerState.alarm).mpr hOK
    have htl2 : ∀ t ∈ s.timers.tail,
        t.id ≠ ({ cur with state := TimerState.alarm } : Timer).id := htl
    obtain ⟨v1, v2, v3, v4, v5⟩ := inv_writeBack h hOK2 hid htl2
    exact ⟨v1, v2, v3, v4,
      fun c hc => by
        simp only [curOf, Option.some.injEq] at hc
        subst hc
        exact ⟨hOK2, hid, v5⟩,
      fun c hc => by simp at hc,
      fun _ => hr⟩
  · rw [Bool.not_eq_true] at hal
    rw [completeStep_noalarm hal]
    have hOK1 : TimerOK { cur with state := TimerState.complete } :=
      (timerOK_set_state cur TimerState.complete).mpr hOK
    have htl1 : ∀ t ∈ s.timers.tail,
        t.id ≠ ({ cur with state := TimerState.complete } : Timer).id := htl
    obtain ⟨w1, w2, w3, w4, w5⟩ := inv_writeBack h hOK1 hid htl1
    exact ⟨w1, w2, w3, w4,
      fun c hc => by
        simp only [curOf, Option.some.injEq] at hc
        subst hc
        exact ⟨hOK1, hid, w5⟩,
      fun c hc => by simp at hc,
      fun _ => hr⟩

theorem inv_innerStep {s : Engine} {cur : Timer} (h : Inv s) (hOK : TimerOK cur)
    (hid : cur.id < s.nextId) (htl : ∀ t ∈ s.timers.tail, t.id ≠ cur.id) :
    Inv (innerStep s cur).1 := by
  by_cases hr : s.running = true
  · by_cases hrem : 0 < cur.remaining_seconds
    · by_cases hp : s.paused = true
      · rw [innerStep_poll hrem hr hp]
        exact ⟨h.ok_queue, h.id_queue, h.ids_nodup, h.tail_wait,
          fun c hcc => by
            simp only [curOf, Option.some.injEq] at hcc
            subst hcc
            exact ⟨hOK, hid, htl⟩,
          fun c hcc => by simp at hcc,
          fun _ => hr⟩
      · rw [Bool.not_eq_true] at hp
        rw [innerStep_sleep hrem hr hp]
        exact ⟨h.ok_queue, h.id_queue, h.ids_nodup, h.tail_wait,
          fun c hcc => by
            simp only [curOf, Option.some.injEq] at hcc
            subst hcc
            exact ⟨hOK, hid, htl⟩,
          fun c hcc => by
            simp only [PC.tickSleep.injEq] at hcc
            subst hcc
            exact hrem,
          fun _ => hr⟩
    · rw [innerStep_done hrem hr]
      exact inv_completeStep h hOK hid htl hr
  · rw [Bool.not_eq_true] at hr
    rw [innerStep_break hr]
    exact inv_tailStep h

theorem inv_tickResume {s : Engine} {cur : Timer} (h : Inv s) (hOK : TimerOK cur)
    (hid : cur.id < s.nextId) (htl : ∀ t ∈ s.timers.tail, t.id ≠ cur.id)
    (hpos : 0 < cur.remaining_seconds) (hr : s.running = true) :
    Inv (tickResume s cur).1 := by
  by_cases hp : s.paused = false
  · rw [tickResume_tick hp hr]
    have hOK' : TimerOK { cur with remaining_seconds := cur.remaining_seconds - 1 } := by
      obtain ⟨o1, o2⟩ := hOK
      refine ⟨?_, fun hd => ?_⟩
      · show cur.remaining_seconds - 1 ≤ cur.duration_seconds
        omega
      · have hd' : 0 ≤ cur.duration_seconds := hd
        show (0 : Int) ≤ cur.remaining_seconds - 1
        omega
    have htl' : ∀ t ∈ s.timers.tail, t.id ≠
        ({ cur with remaining_seconds := cur.remaining_seconds - 1 } : Timer).id := htl
    obtain ⟨w1, w2, w3, w4, w5⟩ := inv_writeBack h hOK' hid htl'
    exact ⟨w1, w2, w3, w4,
      fun c hcc => by
        simp only [curOf, Option.some.injEq] at hcc
        subst hcc
        exact ⟨hOK', hid, w5⟩,
      fun c hcc => by simp at hcc,
      fun _ => hr⟩
  · rw [tickResume_skip fun hc => hp hc.1]
    exact ⟨h.ok_queue, h.id_queue, h.ids_nodup, h.tail_wait,
      fun c hcc => by
        simp only [curOf, Option.some.injEq] at hcc
        subst hcc
        exact ⟨hOK, hid, htl⟩,
      fun c hcc => by simp at hcc,
      fun _ => hr⟩

theorem inv_popStep {s : Engine} {cur : Timer} (h : Inv s) (hr : s.running = true) :
    Inv (popStep s cur).1 := by
  rcases ht : s.timers with _ | ⟨h0, t0⟩
  · rw [popStep_nil ht]
    exact ⟨by simp, by simp, by simp, by simp,
      fun c hc => by simp [curOf] at hc,
      fun c hc => by simp at hc,
      fun _ => hr⟩
  · by_cases hidm : h0.id = cur.id
    · rw [popStep_hit ht hidm]
      refine ⟨?_, ?_, ?_, ?_, fun c hc => by simp [curOf] at hc,
        fun c hc => by simp at hc, fun _ => hr⟩
      · exact fun u hu => h.ok_queue u (by simp [ht, hu])
      · exact fun u hu => h.id_queue u (by simp [ht, hu])
      · have := h.ids_nodup
        rw [ht] at this
        simp only [List.map_cons, List.nodup_cons] at this
        exact this.2
      · intro u hu
        exact h.tail_wait u (by simp [ht]; exact List.mem_of_mem_tail hu)
    · rw [popStep_miss ht hidm]
      refine ⟨?_, ?_, ?_, ?_, fun c hc => by simp [curOf] at hc,
        fun c hc => by simp at hc, fun _ => hr⟩
      · exact fun u hu => h.ok_queue u (by rw [ht]; exact hu)
      · exact fun u hu => h.id_queue u (by rw [ht]; exact hu)
      · have := h.ids_nodup
        rw [ht] at this
        exact this
      · intro u hu
        simp only [List.tail_cons] at hu
        exact h.tail_wait u (by simp [ht, hu])

theorem inv_alarmResume {s : Engine} {cur : Timer} (h : Inv s) (hOK : TimerOK cur)
    (hid : cur.id < s.nextId) (htl : ∀ t ∈ s.timers.tail, t.id ≠ cur.id)
    (hr : s.running = true) : Inv (alarmResume s cur).1 := by
  refine ⟨h.ok_queue, h.id_queue, h.ids_nodup, h.tail_wait,
    fun c hc => ?_, fun c hc => by simp [alarmResume] at hc, fun _ => hr⟩
  simp only [alarmResume, curOf, Option.some.injEq] at hc
  subst hc
  exact ⟨hOK, hid, htl⟩

theorem inv_of_eq {r : Engine × List Event} {s' : Engine} {es : List Event}
    (hm : some r = some (s', es)) (h : Inv r.1) : Inv s' := by
  have he : r.1 = s' := congrArg Prod.fst (Option.some.inj hm)
  rw [← he]
  exact h

theorem inv_micro {s s' : Engine} {es : List Event} (h : Inv s)
    (hm : microStep s = some (s', es)) : Inv s' := by
  cases hpc : s.pc with
  | off =>
    rw [microStep, hpc] at hm
    exact absurd hm (by simp)
  | created =>
    rw [microStep, hpc] at hm
    exact inv_of_eq hm (inv_outerStep h)
  | atOuter =>
    rw [microStep, hpc] at hm
    exact inv_of_eq hm (inv_outerStep h)
  | atInner cur =>
    rw [microStep, hpc] at hm
    obtain ⟨hOK, hid, htl⟩ := h.ok_cur cur (by rw [hpc]; rfl)
    exact inv_of_eq hm (inv_innerStep h hOK hid htl)
  | pausePollSleep cur =>
    rw [microStep, hpc] at hm
    obtain ⟨hOK, hid, htl⟩ := h.ok_cur cur (by rw [hpc]; rfl)
    have hr : s.running = true := h.run_pc (by rw [hpc]; simp)
    refine inv_of_eq hm ⟨h.ok_queue, h.id_queue, h.ids_nodup, h.tail_wait, ?_, ?_, ?_⟩
    · intro c hc
      simp only [curOf, Option.some.injEq] at hc
      subst hc
      exact ⟨hOK, hid, htl⟩
    · intro c hc
      simp at hc
    · intro _
      exact hr
  | tickSleep cur =>
    rw [microStep, hpc] at hm
    obtain ⟨hOK, hid, htl⟩ := h.ok_cur cur (by rw [hpc]; rfl)
    have hpos := h.tick_pos cur hpc
    have hr : s.running = true := h.run_pc (by rw [hpc]; simp)
    exact inv_of_eq hm (inv_tickResume h hOK hid htl hpos hr)
  | alarmSleep cur =>
    rw [microStep, hpc] at hm
    obtain ⟨hOK, hid, htl⟩ := h.ok_cur cur (by rw [hpc]; rfl)
    have hr : s.running = true := h.run_pc (by rw [hpc]; simp)
    exact inv_of_eq hm (inv_alarmResume h hOK hid htl hr)
  | atPop cur =>
    rw [microStep, hpc] at hm
    have hr : s.running = true := h.run_pc (by rw [hpc]; simp)
    exact inv_of_eq hm (inv_popStep h hr)

theorem inv_init : Inv initEngine := by
  refine ⟨?_, ?_, ?_, ?_, ?_, ?_, ?_⟩ <;> simp [initEngine, curOf]

theorem reach_inv {s : Engine} (h : Reach s) : Inv s := by
  induction h with
  | init => exact inv_init
  | micro _ hm ih => exact inv_micro ih hm
  | cadd label d al _ _ ih => exact inv_addTimer label d al ih
  | cremove id _ _ ih => exact inv_removeTimer id ih
  | cstart _ _ ih => exact inv_start ih
  | cpause _ _ ih => exact inv_pause ih
  | cstop _ _ ih => exact inv_stop ih
  | cclear _ _ ih => exact inv_clearAll ih

/-! ## Running the coroutine -/

theorem drain_succ_of_step {s s' : Engine} {es : List Event} (n : Nat)
    (h : microStep s = some (s', es)) :
    drain (n + 1) s = ((drain n s').1, es ++ (drain n s').2) := by
  simp [drain, h]

theorem drain_off {s : Engine} (h : s.pc = PC.off) (n : Nat) : drain n s = (s, []) := by
  cases n with
  | zero => rfl
  | succ n => simp [drain, microStep, h]

theorem reach_drain {s : Engine} (h : Reach s) (n : Nat) : Reach (drain n s).1 := by
  induction n generalizing s with
  | zero => exact h
  | succ n ih =>
    cases hm : microStep s with
    | none => simpa [drain, hm] using h
    | some r =>
      obtain ⟨s', es⟩ := r
      rw [drain_succ_of_step n hm]
      exact ih (Reach.micro h hm)

/-! ## The alias-synchronisation invariant -/

theorem removeTimer_found {id : Nat} {s : Engine}
    (hf : (removeTimerList id s.timers).2 = true) :
    removeTimer id s =
      ({ s with timers := (removeTimerList id s.timers).1 },
        [Event.stateChange], true) := by
  simp [removeTimer, hf]

theorem removeTimer_missing {id : Nat} {s : Engine}
    (hf : (removeTimerList id s.timers).2 = false) :
    removeTimer id s = (s, [], false) := by
  simp [removeTimer, hf]

theorem step_out {X : Engine × List Event} {s' : Engine} {es : List Event}
    (hm : some X = some (s', es)) : s' = X.1 :=
  (congrArg Prod.fst (Option.some.inj hm)).symm

theorem events_out {X : Engine × List Event} {s' : Engine} {es : List Event}
    (hm : some X = some (s', es)) : es = X.2 :=
  (congrArg Prod.snd (Option.some.inj hm)).symm

theorem sync_addTimer (lbl : String) (d : Int) (al : Bool) {s : Engine} (hinv : Inv s)
    (hs : CurSync s) : CurSync (addTimer lbl d al s).1 := by
  intro cur hcur t ht hid
  have hcur' : curOf s.pc = some cur := hcur
  rcases List.mem_append.mp ht with ht | ht
  · exact hs cur hcur' t ht hid
  · rcases List.mem_singleton.mp ht with rfl
    have := (hinv.ok_cur cur hcur').2.1
    simp only [mkTimer] at hid
    omega

theorem sync_removeTimer (id : Nat) {s : Engine} (hs : CurSync s) :
    CurSync (removeTimer id s).1 := by
  have hpc : (removeTimer id s).1.pc = s.pc := by
    by_cases hf : (removeTimerList id s.timers).2 = true
    · rw [removeTimer_found hf]
    · rw [removeTimer_missing (by simpa using hf)]
  have hsub : ∀ x ∈ (removeTimer id s).1.timers, x ∈ s.timers := by
    by_cases hf : (removeTimerList id s.timers).2 = true
    · rw [removeTimer_found hf]
      exact fun x hx => (removeTimerList_sublist id s.timers).subset hx
    · rw [removeTimer_missing (by simpa using hf)]
      exact fun x hx => hx
  intro cur hcur t ht hid
  exact hs cur (hpc ▸ hcur) t (hsub t ht) hid

theorem sync_start {s : Engine} (hs : CurSync s) : CurSync (start s).1 := by
  by_cases he : s.timers = []
  · rw [start_empty he]
    exact hs
  · by_cases hp : s.paused = true
    · rw [start_resume he hp]
      exact fun cur hcur t ht hid => hs cur hcur t ht hid
    · by_cases hr : s.running = true
      · rw [start_already he (by simpa using hp) hr]
        exact hs
      · rw [start_fresh he (by simpa using hp) (by simpa using hr)]
        intro cur hcur
        simp [curOf] at hcur

theorem sync_pause {s : Engine} (hinv : Inv s) (hs : CurSync s) :
    CurSync (pause s).1 := by
  by_cases hc : s.running = false ∨ s.paused = true
  · rw [pause_fail hc]
    exact hs
  · push_neg at hc
    obtain ⟨hr0, hp0⟩ := hc
    have hr : s.running = true := by revert hr0; cases s.running <;> simp
    have hp : s.paused = false := by revert hp0; cases s.paused <;> simp
    rcases ht : s.timers with _ | ⟨h0, t0⟩
    · rw [pause_nohead hr hp ht]
      intro cur hcur t htm hid
      simp only [ht] at htm
      simp at htm
    · rw [pause_head hr hp ht]
      intro cur hcur t htm hid
      rw [curOf_mapCur] at hcur
      rcases ho : curOf s.pc with _ | c
      · rw [ho] at hcur
        simp at hcur
      · rw [ho] at hcur
        simp only [Option.map_some'] at hcur
        rcases Option.some_injective _ hcur with rfl
        obtain ⟨_, _, h3⟩ := hinv.ok_cur c ho
        rcases List.mem_cons.mp htm with rfl | htm
        · by_cases hcid : c.id = h0.id
          · have hh0 : h0 = c := hs c ho h0 (by simp [ht]) hcid.symm
            rw [if_pos hcid, ← hh0]
          · exfalso
            rw [if_neg hcid] at hid
            exact hcid hid.symm
        · exfalso
          have hneq := h3 t (by simp [ht, htm])
          by_cases hcid : c.id = h0.id
          · rw [if_pos hcid] at hid
            exact hneq hid
          · rw [if_neg hcid] at hid
            exact hneq hid

theorem sync_stop {s : Engine} : CurSync (stop s).1 := by
  intro cur hcur
  simp [stop, curOf] at hcur

theorem sync_clearAll {s : Engine} : CurSync (clearAll s).1 := by
  intro cur hcur
  simp [clearAll, stop, curOf] at hcur

theorem sync_micro {s s' : Engine} {es : List Event} (hinv : Inv s) (hs : CurSync s)
    (hm : microStep s = some (s', es)) : CurSync s' := by
  cases hpc : s.pc with
  | off =>
    rw [microStep, hpc] at hm
    exact absurd hm (by simp)
  | created =>
    rw [microStep, hpc] at hm
    obtain rfl := step_out hm
    rcases ht : s.timers with _ | ⟨h0, t0⟩
    · rw [outerStep_nil ht]
      intro cur hcur
      simp [tailStep, curOf] at hcur
    · by_cases hr : s.running = true
      · rw [outerStep_head ht hr]
        intro cur hcur t htm hid
        simp only [curOf, Option.some.injEq] at hcur
        subst hcur
        rcases List.mem_cons.mp htm with rfl | htm
        · rfl
        · exfalso
          have hnd := hinv.ids_nodup
          rw [ht] at hnd
          simp only [List.map_cons, List.nodup_cons] at hnd
          exact hnd.1 (hid ▸ List.mem_map_of_mem Timer.id htm)
      · rw [outerStep_stopped (by simpa using hr)]
        intro cur hcur
        simp [tailStep, curOf] at hcur
  | atOuter =>
    rw [microStep, hpc] at hm
    obtain rfl := step_out hm
    rcases ht : s.timers with _ | ⟨h0, t0⟩
    · rw [outerStep_nil ht]
      intro cur hcur
      simp [tailStep, curOf] at hcur
    · by_cases hr : s.running = true
      · rw [outerStep_head ht hr]
        intro cur hcur t htm hid
        simp only [curOf, Option.some.injEq] at hcur
        subst hcur
        rcases List.mem_cons.mp htm with rfl | htm
        · rfl
        · exfalso
          have hnd := hinv.ids_nodup
          rw [ht] at hnd
          simp only [List.map_cons, List.nodup_cons] at hnd
          exact hnd.1 (hid ▸ List.mem_map_of_mem Timer.id htm)
      · rw [outerStep_stopped (by simpa using hr)]
        intro cur hcur
        simp [tailStep, curOf] at hcur
  | atInner cur0 =>
    rw [microStep, hpc] at hm
    obtain rfl := step_out hm
    have hr : s.running = true := hinv.run_pc (by rw [hpc]; simp)
    have hsync0 : ∀ t ∈ s.timers, t.id = cur0.id → t = cur0 :=
      hs cur0 (by rw [hpc]; rfl)
    by_cases hrem : 0 < cur0.remaining_seconds
    · by_cases hp : s.paused = true
      · rw [innerStep_poll hrem hr hp]
        intro cur hcur t htm hid
        simp only [curOf, Option.some.injEq] at hcur
        subst hcur
        exact hsync0 t htm hid
      · rw [innerStep_sleep hrem hr (by simpa using hp)]
        intro cur hcur t htm hid
        simp only [curOf, Option.some.injEq] at hcur
        subst hcur
        exact hsync0 t htm hid
    · rw [innerStep_done hrem hr]
      by_cases hal : cur0.alarm_enabled = true
      · rw [completeStep_alarm hal]
        intro cur hcur t htm hid
        simp only [curOf, Option.some.injEq] at hcur
        subst hcur
        exact mem_writeBack_id htm hid
      · rw [completeStep_noalarm (by simpa using hal)]
        intro cur hcur t htm hid
        simp only [curOf, Option.some.injEq] at hcur
        subst hcur
        exact mem_writeBack_id htm hid
  | pausePollSleep cur0 =>
    rw [microStep, hpc] at hm
    obtain rfl := step_out hm
    intro cur hcur t htm hid
    simp only [curOf, Option.some.injEq] at hcur
    subst hcur
    exact hs cur0 (by rw [hpc]; rfl) t htm hid
  | tickSleep cur0 =>
    rw [microStep, hpc] at hm
    obtain rfl := step_out hm
    have hr : s.running = true := hinv.run_pc (by rw [hpc]; simp)
    by_cases hp : s.paused = false
    · rw [tickResume_tick hp hr]
      intro cur hcur t htm hid
      simp only [curOf, Option.some.injEq] at hcur
      subst hcur
      exact mem_writeBack_id htm hid
    · rw [tickResume_skip fun hc => hp hc.1]
      intro cur hcur t htm hid
      simp only [curOf, Option.some.injEq] at hcur
      subst hcur
      exact hs cur0 (by rw [hpc]; rfl) t htm hid
  | alarmSleep cur0 =>
    rw [microStep, hpc] at hm
    obtain rfl := step_out hm
    intro cur hcur t htm hid
    simp only [alarmResume, curOf, Option.some.injEq] at hcur
    subst hcur
    exact hs cur0 (by rw [hpc]; rfl) t htm hid
  | atPop cur0 =>
    rw [microStep, hpc] at hm
    obtain rfl := step_out hm
    rcases ht : s.timers with _ | ⟨h0, t0⟩
    · rw [popStep_nil ht]
      intro cur hcur
      simp [curOf] at hcur
    · by_cases hidm : h0.id = cur0.id
      · rw [popStep_hit ht hidm]
        intro cur hcur
        simp [curOf] at hcur
      · rw [popStep_miss ht hidm]
        intro cur hcur
        simp [curOf] at hcur

theorem reach_sync {s : Engine} (h : Reach s) : CurSync s := by
  induction h with
  | init =>
    intro cur hcur
    simp [initEngine, curOf] at hcur
  | micro ha hm ih => exact sync_micro (reach_inv ha) ih hm
  | cadd label d al ha _ ih => exact sync_addTimer label d al (reach_inv ha) ih
  | cremove id _ _ ih => exact sync_removeTimer id ih
  | cstart _ _ ih => exact sync_start ih
  | cpause ha _ ih => exact sync_pause (reach_inv ha) ih
  | cstop _ _ _ => exact sync_stop
  | cclear _ _ _ => exact sync_clearAll

/-! ## The single-timer no-alarm run (claim C3's scenario) -/

theorem step_mid (d k : Int) :
    microStep (midState d k) =
      some (oneT (c3Tick d (k - 1)) (PC.atInner (c3Tick d (k - 1))),
        [Event.tick (c3Tick d (k - 1))]) := by
  have h : microStep (midState d k) =
      some (tickResume (midState d k) (c3Tick d k)) := rfl
  rw [h, tickResume_tick rfl rfl]
  simp [midState, oneT, writeBack, c3Tick]

theorem step_inner_pos (d k : Int) (hk : 0 < k) :
    microStep (oneT (c3Tick d k) (PC.atInner (c3Tick d k))) = some (midState d k, []) := by
  have h : microStep (oneT (c3Tick d k) (PC.atInner (c3Tick d k))) =
      some (innerStep (oneT (c3Tick d k) (PC.atInner (c3Tick d k))) (c3Tick d k)) := rfl
  rw [h, innerStep_sleep hk rfl rfl]
  rfl

theorem step_inner_zero (d : Int) :
    microStep (oneT (c3Tick d 0) (PC.atInner (c3Tick d 0))) =
      some (oneT (c3Done d) (PC.atPop (c3Done d)),
        [Event.timerComplete (c3Done d)]) := by
  have h : microStep (oneT (c3Tick d 0) (PC.atInner (c3Tick d 0))) =
      some (innerStep (oneT (c3Tick d 0) (PC.atInner (c3Tick d 0))) (c3Tick d 0)) := rfl
  rw [h, innerStep_done (by simp [c3Tick]) rfl, completeStep_noalarm rfl]
  simp [oneT, writeBack, c3Tick, c3Done]

theorem step_pop_done (d : Int) :
    microStep (oneT (c3Done d) (PC.atPop (c3Done d))) =
      some (emptyRun, [Event.stateChange]) := by
  have h : microStep (oneT (c3Done d) (PC.atPop (c3Done d))) =
      some (popStep (oneT (c3Done d) (PC.atPop (c3Done d))) (c3Done d)) := rfl
  rw [h, popStep_hit rfl rfl]
  simp [oneT, emptyRun]

theorem step_outer_empty :
    microStep emptyRun = some (endEngine, [Event.queueComplete, Event.stateChange]) := by
  have h : microStep emptyRun = some (outerStep emptyRun) := rfl
  rw [h, outerStep_nil rfl]
  simp [tailStep, emptyRun, endEngine]

theorem c3Engine_eq (d : Int) : c3Engine d = oneT (c3T0 d) PC.created := by
  simp [c3Engine, start, addTimer, initEngine, mkTimer, oneT, c3T0]

theorem step_created (d : Int) :
    microStep (oneT (c3T0 d) PC.created) =
      some (oneT (c3Tick d d) (PC.atInner (c3Tick d d)), [Event.stateChange]) := by
  have h : microStep (oneT (c3T0 d) PC.created) =
      some (outerStep (oneT (c3T0 d) PC.created)) := rfl
  rw [h, outerStep_head rfl rfl]
  simp [oneT, c3T0, c3Tick]

theorem c3_countdown (d : Int) :
    ∀ r : Nat, drain (2 * r + 4) (midState d ((r : Int) + 1)) =
      (endEngine, finTrace d (r + 1)) := by
  intro r
  induction r with
  | zero =>
    have h1 := step_mid d 1
    norm_num at h1
    have hfuel : 2 * 0 + 4 = 3 + 1 := by norm_num
    have hcast : (((0 : Nat) : Int) + 1) = 1 := by norm_num
    rw [hfuel, hcast, drain_succ_of_step 3 h1]
    have h3 : (3 : Nat) = 2 + 1 := by norm_num
    rw [h3, drain_succ_of_step 2 (step_inner_zero d)]
    have h2 : (2 : Nat) = 1 + 1 := by norm_num
    rw [h2, drain_succ_of_step 1 (step_pop_done d)]
    have h1' : (1 : Nat) = 0 + 1 := by norm_num
    rw [h1', drain_succ_of_step 0 step_outer_empty]
    simp [drain, finTrace, tickTrace]
  | succ r ih =>
    have hcast : (((r + 1 : Nat) : Int) + 1) = ((r : Int) + 1) + 1 := by push_cast; ring
    rw [hcast]
    have h1 := step_mid d (((r : Int) + 1) + 1)
    rw [add_sub_cancel_right] at h1
    have h2 := step_inner_pos d ((r : Int) + 1) (by omega)
    have hfuel : 2 * (r + 1) + 4 = (2 * r + 4) + 1 + 1 := by ring
    rw [hfuel, drain_succ_of_step (2 * r + 4 + 1) h1, drain_succ_of_step (2 * r + 4) h2,
      ih]
    simp only [List.nil_append, List.cons_append, Prod.mk.injEq, true_and]
    simp only [finTrace, tickTrace]
    push_cast
    simp

theorem c3_run_core (d : Nat) :
    drain (2 * d + 4) (c3Engine (d : Int)) =
      (endEngine, Event.stateChange :: finTrace (d : Int) d) := by
  cases d with
  | zero =>
    have hz : ((0 : Nat) : Int) = (0 : Int) := by norm_num
    rw [hz, c3Engine_eq 0]
    have hfuel : 2 * 0 + 4 = 3 + 1 := by norm_num
    rw [hfuel, drain_succ_of_step 3 (step_created 0)]
    rw [show (3 : Nat) = 2 + 1 from by norm_num,
      drain_succ_of_step 2 (step_inner_zero 0)]
    rw [show (2 : Nat) = 1 + 1 from by norm_num,
      drain_succ_of_step 1 (step_pop_done 0)]
    rw [show (1 : Nat) = 0 + 1 from by norm_num,
      drain_succ_of_step 0 step_outer_empty]
    simp [drain, finTrace, tickTrace]
  | succ r =>
    rw [c3Engine_eq]
    have hfuel : 2 * (r + 1) + 4 = ((2 * r + 4) + 1) + 1 := by ring
    rw [hfuel, drain_succ_of_step ((2 * r + 4) + 1) (step_created ((r + 1 : Nat) : Int)),
      drain_succ_of_step (2 * r + 4) (step_inner_pos ((r + 1 : Nat) : Int)
        ((r + 1 : Nat) : Int) (by positivity))]
    have hcast : (((r + 1 : Nat) : Int)) = ((r : Int) + 1) := by push_cast; ring
    rw [hcast, c3_countdown ((r : Int) + 1) r]
    simp

theorem tickTrace_countP_tick (d : Int) (k : Nat) :
    (tickTrace d k).countP isTick = k := by
  induction k with
  | zero => rfl
  | succ k ih => simp [tickTrace, List.countP_cons, isTick, ih]

theorem tickTrace_all_tick (d : Int) (k : Nat) :
    ∀ e ∈ tickTrace d k, ∃ t, e = Event.tick t := by
  induction k with
  | zero => simp [tickTrace]
  | succ k ih =>
    intro e he
    rcases List.mem_cons.mp he with rfl | he
    · exact ⟨_, rfl⟩
    · exact ih e he

theorem finTrace_counts (d : Int) (k : Nat) :
    (finTrace d k).countP isTick = k ∧ (finTrace d k).countP isCompleteEv = 1 ∧
      (finTrace d k).countP isAlarmEv = 0 ∧
      (finTrace d k).countP isQueueCompleteEv = 1 := by
  have hC : (tickTrace d k).countP isCompleteEv = 0 := by
    rw [List.countP_eq_zero]
    intro a ha
    obtain ⟨t, rfl⟩ := tickTrace_all_tick d k a ha
    simp [isCompleteEv]
  have hA : (tickTrace d k).countP isAlarmEv = 0 := by
    rw [List.countP_eq_zero]
    intro a ha
    obtain ⟨t, rfl⟩ := tickTrace_all_tick d k a ha
    simp [isAlarmEv]
  have hQ : (tickTrace d k).countP isQueueCompleteEv = 0 := by
    rw [List.countP_eq_zero]
    intro a ha
    obtain ⟨t, rfl⟩ := tickTrace_all_tick d k a ha
    simp [isQueueCompleteEv]
  refine ⟨?_, ?_, ?_, ?_⟩ <;>
    simp [finTrace, List.countP_append, List.countP_cons, tickTrace_countP_tick,
      hC, hA, hQ, isTick, isCompleteEv, isAlarmEv, isQueueCompleteEv]

/-! ## Claim theorems -/

/-- C1: for every timer in the engine's queue that was created with a
nonnegative `duration_seconds`, `0 <= remaining_seconds <=
duration_seconds` holds in every state reachable by `TimerManager`
operations and advancement-loop steps, hence in particular after every
operation and at every suspension point of the loop. -/
theorem c1_remaining_bounds {s : Engine} (hs : Reach s) :
    ∀ t ∈ s.timers, 0 ≤ t.duration_seconds →
      0 ≤ t.remaining_seconds ∧ t.remaining_seconds ≤ t.duration_seconds := by
  intro t ht hd
  obtain ⟨h1, h2⟩ := (reach_inv hs).ok_queue t ht
  exact ⟨h2 hd, h1⟩

/-- Witness for C1 at a concrete reachable state. -/
theorem c1_remaining_bounds_witness :
    0 ≤ (mkTimer 0 "A" 5 5 true TimerState.waiting).remaining_seconds ∧
      (mkTimer 0 "A" 5 5 true TimerState.waiting).remaining_seconds ≤
        (mkTimer 0 "A" 5 5 true TimerState.waiting).duration_seconds :=
  c1_remaining_bounds (Reach.cadd "A" 5 true Reach.init rfl)
    (mkTimer 0 "A" 5 5 true TimerState.waiting)
    (by simp [addTimer, initEngine]) (by norm_num [mkTimer])

/-- C2: in every reachable state, at most one queued timer is in a
non-`Waiting` state (so at most one is `Running`, `Paused`, or
`Alarm`), and any queued timer in the `Complete` state is the queue
head. -/
theorem c2_single_active {s : Engine} (hs : Reach s) :
    (s.timers.filter fun t => t.state != TimerState.waiting).length ≤ 1 ∧
      ∀ t ∈ s.timers, t.state = TimerState.complete → s.timers.head? = some t := by
  have hinv := reach_inv hs
  constructor
  · rcases ht : s.timers with _ | ⟨h0, t0⟩
    · simp
    · have htw : t0.filter (fun t => t.state != TimerState.waiting) = [] := by
        refine List.filter_eq_nil_iff.mpr fun a ha => ?_
        have := hinv.tail_wait a (by simp [ht, ha])
        simp [this]
      simp only [List.filter_cons]
      split
      · simp [htw]
      · simp [htw]
  · intro t ht hc
    rcases hts : s.timers with _ | ⟨h0, t0⟩
    · rw [hts] at ht
      simp at ht
    · rw [hts] at ht
      rcases List.mem_cons.mp ht with rfl | htl
      · simp
      · have hw := hinv.tail_wait t (by simp [hts, htl])
        rw [hw] at hc
        cases hc

/-- Witness for C2 at a concrete reachable mid-run state. -/
theorem c2_single_active_witness :
    ((drain 3 (c3Engine 5)).1.timers.filter
        fun t => t.state != TimerState.waiting).length ≤ 1 :=
  (c2_single_active
    (reach_drain (Reach.cstart (Reach.cadd "Timer" 5 false Reach.init rfl) rfl) 3)).1

/-- C6: `start()` on an empty queue, `start()` while actively running
and not paused, and `pause()` when not running or already paused all
return `False` without changing any state and without emitting any
event. -/
theorem c6_precondition_failures :
    (∀ s : Engine, s.timers = [] → start s = (s, [], false)) ∧
      (∀ s : Engine, s.timers ≠ [] → s.paused = false → s.running = true →
        start s = (s, [], false)) ∧
      (∀ s : Engine, s.running = false ∨ s.paused = true →
        pause s = (s, [], false)) := by
  refine ⟨?_, ?_, ?_⟩
  · intro s h
    exact start_empty h
  · intro s h hp hr
    exact start_already h hp hr
  · intro s h
    exact pause_fail h

/-- Witness for C6 at concrete states: fresh manager and a running
engine. -/
theorem c6_precondition_failures_witness :
    start initEngine = (initEngine, [], false) ∧
      pause initEngine = (initEngine, [], false) ∧
      start (c3Engine 3) = (c3Engine 3, [], false) :=
  ⟨c6_precondition_failures.1 initEngine rfl,
    c6_precondition_failures.2.2 initEngine (Or.inl rfl),
    c6_precondition_failures.2.1 (c3Engine 3) (by decide) (by decide) (by decide)⟩

/-- C7: `stop()` always clears both flags, resets every queued timer to
`Waiting` with a full countdown, emits exactly one state-change event,
and preserves the queue's length, order, and each timer's `id`,
`label`, `duration_seconds` and `alarm_enabled` fields. -/
theorem c7_stop_resets (s : Engine) :
    (stop s).1.running = false ∧ (stop s).1.paused = false ∧
      (stop s).2 = [Event.stateChange] ∧
      (stop s).1.timers.length = s.timers.length ∧
      (∀ i : Nat,
        ((stop s).1.timers[i]?).map Timer.id = (s.timers[i]?).map Timer.id ∧
        ((stop s).1.timers[i]?).map Timer.label = (s.timers[i]?).map Timer.label ∧
        ((stop s).1.timers[i]?).map Timer.duration_seconds =
          (s.timers[i]?).map Timer.duration_seconds ∧
        ((stop s).1.timers[i]?).map Timer.alarm_enabled =
          (s.timers[i]?).map Timer.alarm_enabled) ∧
      ∀ t ∈ (stop s).1.timers,
        t.state = TimerState.waiting ∧ t.remaining_seconds = t.duration_seconds := by
  refine ⟨rfl, rfl, rfl, by simp [stop], ?_, ?_⟩
  · intro i
    rcases ho : s.timers[i]? with _ | t
    · simp [stop, List.getElem?_map, ho]
    · simp [stop, List.getElem?_map, ho, Timer.reset]
  · intro t ht
    simp only [stop] at ht
    rcases List.mem_map.mp ht with ⟨u, _, rfl⟩
    simp [Timer.reset]

/-- Witness for C7 on a concrete engine holding one timer. -/
theorem c7_stop_resets_witness :
    (stop (addTimer "A" 5 true initEngine).1).2 = [Event.stateChange] ∧
      (Timer.reset (mkTimer 0 "A" 5 5 true TimerState.waiting)).state =
        TimerState.waiting ∧
      (Timer.reset (mkTimer 0 "A" 5 5 true TimerState.waiting)).remaining_seconds =
        (Timer.reset (mkTimer 0 "A" 5 5 true
          TimerState.waiting)).duration_seconds :=
  ⟨(c7_stop_resets (addTimer "A" 5 true initEngine).1).2.2.1,
    ((c7_stop_resets (addTimer "A" 5 true initEngine).1).2.2.2.2.2
      (Timer.reset (mkTimer 0 "A" 5 5 true TimerState.waiting)) (by decide)).1,
    ((c7_stop_resets (addTimer "A" 5 true initEngine).1).2.2.2.2.2
      (Timer.reset (mkTimer 0 "A" 5 5 true TimerState.waiting)) (by decide)).2⟩

/-- C3: a single timer with duration `d` and alarm disabled, run to
completion undisturbed, produces the exact event trace `state-change`,
then `d` ticks, then one timer-complete, a state change, one
queue-complete and a final state change — so exactly `d` ticks followed
by exactly one completion and no alarm events; in particular `d = 0`
completes on the first loop iteration with zero ticks, and `stop()`
followed by `start()` on a 3-second timer replays exactly 3 ticks. -/
theorem c3_tick_counts :
    (∀ d : Nat,
      (drain (2 * d + 4) (c3Engine (d : Int))).2 =
          Event.stateChange :: finTrace (d : Int) d ∧
        (drain (2 * d + 4) (c3Engine (d : Int))).2.countP isTick = d ∧
        (drain (2 * d + 4) (c3Engine (d : Int))).2.countP isCompleteEv = 1 ∧
        (drain (2 * d + 4) (c3Engine (d : Int))).2.countP isAlarmEv = 0 ∧
        (drain (2 * d + 4) (c3Engine (d : Int))).1 = endEngine) ∧
      ((drain 4 (c3Engine 0)).2 =
        [Event.stateChange, Event.timerComplete (c3Done 0), Event.stateChange,
          Event.queueComplete, Event.stateChange]) ∧
      ((drain 10 (start (stop (drain 4 (c3Engine 3)).1).1).1).2.countP isTick = 3 ∧
        (drain 10 (start (stop (drain 4 (c3Engine 3)).1).1).1).2.countP
          isCompleteEv = 1 ∧
        (drain 10 (start (stop (drain 4 (c3Engine 3)).1).1).1).2.countP
          isAlarmEv = 0) := by
  refine ⟨?_, by decide, by decide, by decide, by decide⟩
  intro d
  have hrun := c3_run_core d
  have htr : (drain (2 * d + 4) (c3Engine (d : Int))).2 =
      Event.stateChange :: finTrace (d : Int) d := by rw [hrun]
  have hst : (drain (2 * d + 4) (c3Engine (d : Int))).1 = endEngine := by rw [hrun]
  obtain ⟨q1, q2, q3, _⟩ := finTrace_counts (d : Int) d
  refine ⟨htr, ?_, ?_, ?_, hst⟩
  · rw [htr, List.countP_cons]
    simp [isTick, q1]
  · rw [htr, List.countP_cons]
    simp [isCompleteEv, q2]
  · rw [htr, List.countP_cons]
    simp [isAlarmEv, q3]

/-- Witness for C3 at the concrete duration 5. -/
theorem c3_tick_counts_witness :
    (drain (2 * 5 + 4) (c3Engine ((5 : Nat) : Int))).2.countP isTick = 5 :=
  (c3_tick_counts.1 5).2.1

/-- C4: a queue-complete event is only emitted by a step taken with the
queue empty and the running flag still set, and that step clears the
flag and ends the task; a task that does not exist takes no steps (so
after the single emission nothing more is emitted until a new run), and
`stop()` cancels the task and emits only a state change — no
timer-complete, alarm, or queue-complete event for the interrupted
run. -/
theorem c4_queue_complete_once :
    (∀ {s s' : Engine} {es : List Event}, Reach s →
      microStep s = some (s', es) → Event.queueComplete ∈ es →
      s.timers = [] ∧ s.running = true ∧ s'.running = false ∧ s'.pc = PC.off) ∧
      (∀ s : Engine, s.pc = PC.off → microStep s = none) ∧
      (∀ s : Engine, (stop s).1.pc = PC.off ∧
        (stop s).2.countP isTick = 0 ∧ (stop s).2.countP isCompleteEv = 0 ∧
        (stop s).2.countP isAlarmEv = 0 ∧
        (stop s).2.countP isQueueCompleteEv = 0) := by
  refine ⟨?_, ?_, ?_⟩
  · intro s s' es hs hm hqc
    have hinv := reach_inv hs
    cases hpc : s.pc with
    | off =>
      rw [microStep, hpc] at hm
      exact absurd hm (by simp)
    | created =>
      have hr : s.running = true := hinv.run_pc (by rw [hpc]; simp)
      simp only [microStep, hpc] at hm
      rcases ht : s.timers with _ | ⟨h0, t0⟩
      · rw [outerStep_nil ht] at hm
        obtain rfl := step_out hm
        exact ⟨rfl, hr, rfl, rfl⟩
      · rw [outerStep_head ht hr] at hm
        have hes := events_out hm
        rw [hes] at hqc
        simp at hqc
    | atOuter =>
      have hr : s.running = true := hinv.run_pc (by rw [hpc]; simp)
      simp only [microStep, hpc] at hm
      rcases ht : s.timers with _ | ⟨h0, t0⟩
      · rw [outerStep_nil ht] at hm
        obtain rfl := step_out hm
        exact ⟨rfl, hr, rfl, rfl⟩
      · rw [outerStep_head ht hr] at hm
        have hes := events_out hm
        rw [hes] at hqc
        simp at hqc
    | atInner cur =>
      have hr : s.running = true := hinv.run_pc (by rw [hpc]; simp)
      simp only [microStep, hpc] at hm
      by_cases hrem : 0 < cur.remaining_seconds
      · by_cases hp : s.paused = true
        · rw [innerStep_poll hrem hr hp] at hm
          have hes := events_out hm
          rw [hes] at hqc
          simp at hqc
        · rw [innerStep_sleep hrem hr (by simpa using hp)] at hm
          have hes := events_out hm
          rw [hes] at hqc
          simp at hqc
      · rw [innerStep_done hrem hr] at hm
        by_cases hal : cur.alarm_enabled = true
        · rw [completeStep_alarm hal] at hm
          have hes := events_out hm
          rw [hes] at hqc
          simp at hqc
        · rw [completeStep_noalarm (by simpa using hal)] at hm
          have hes := events_out hm
          rw [hes] at hqc
          simp at hqc
    | pausePollSleep cur =>
      simp only [microStep, hpc] at hm
      have hes := events_out hm
      rw [hes] at hqc
      simp at hqc
    | tickSleep cur =>
      have hr : s.running = true := hinv.run_pc (by rw [hpc]; simp)
      simp only [microStep, hpc] at hm
      by_cases hp : s.paused = false
      · rw [tickResume_tick hp hr] at hm
        have hes := events_out hm
        rw [hes] at hqc
        simp at hqc
      · rw [tickResume_skip fun hc => hp hc.1] at hm
        have hes := events_out hm
        rw [hes] at hqc
        simp at hqc
    | alarmSleep cur =>
      simp only [microStep, hpc] at hm
      have hes := events_out hm
      rw [hes] at hqc
      simp [alarmResume] at hqc
    | atPop cur =>
      simp only [microStep, hpc] at hm
      rcases ht : s.timers with _ | ⟨h0, t0⟩
      · rw [popStep_nil ht] at hm
        have hes := events_out hm
        rw [hes] at hqc
        simp at hqc
      · by_cases hidm : h0.id = cur.id
        · rw [popStep_hit ht hidm] at hm
          have hes := events_out hm
          rw [hes] at hqc
          simp at hqc
        · rw [popStep_miss ht hidm] at hm
          have hes := events_out hm
          rw [hes] at hqc
          simp at hqc
  · intro s h
    rw [microStep, h]
  · intro s
    exact ⟨rfl, rfl, rfl, rfl, rfl⟩

/-- Witness for C4 at the concrete step that drains the C3 queue. -/
theorem c4_queue_complete_once_witness :
    (drain 3 (c3Engine 0)).1.timers = [] ∧
      (drain 3 (c3Engine 0)).1.running = true ∧
      endEngine.running = false ∧ endEngine.pc = PC.off :=
  c4_queue_complete_once.1
    (reach_drain (Reach.cstart (Reach.cadd "Timer" 0 false Reach.init rfl) rfl) 3)
    (show microStep (drain 3 (c3Engine 0)).1 =
      some (endEngine, [Event.queueComplete, Event.stateChange]) by decide)
    (show Event.queueComplete ∈ [Event.queueComplete, Event.stateChange] by decide)

/-- C5 counterexample: in a concrete run (3-second timer, `pause()`
mid-countdown, then `start()` to resume), the head timer's state field
is still `Paused` after the resume — the resume branch of `start` only
clears the pause flag and never sets the timer back to `Running`, so
the claim that `start()` returns the head timer to the `Running` state
is false. -/
theorem c5_pause_resume_counterexample :
    ((start (pause (drain 2 (c3Engine 3)).1).1).1.timers.head?.map Timer.state =
        some TimerState.paused) ∧
      ((start (pause (drain 2 (c3Engine 3)).1).1).1.timers.head?.map Timer.state ≠
        some TimerState.running) := by
  constructor
  · decide
  · decide

/-- C5 (amended): `pause()` freezes every queued timer's
`remaining_seconds` and emits no tick; while the engine is paused no
step emits a tick or changes any surviving timer's `remaining_seconds`;
`start()` on a paused engine with a non-empty queue clears only the
pause flag (the head timer's state field remains `Paused`) and reports
success; and the next one-second resume decrements the current timer
from its frozen value, so ticking continues from there. -/
theorem c5_pause_resume_amended :
    (∀ s : Engine,
        ((pause s).1.timers.map fun t => (t.id, t.remaining_seconds)) =
          s.timers.map fun t => (t.id, t.remaining_seconds)) ∧
      (∀ s : Engine, (pause s).2.1.countP isTick = 0) ∧
      (∀ {s s' : Engine} {es : List Event}, Reach s → s.paused = true →
        microStep s = some (s', es) →
        es.countP isTick = 0 ∧
          ∀ t' ∈ s'.timers, ∃ t ∈ s.timers, t.id = t'.id ∧
            t.remaining_seconds = t'.remaining_seconds) ∧
      (∀ s : Engine, s.paused = true → s.timers ≠ [] →
        start s = ({ s with paused := false }, [Event.stateChange], true)) ∧
      (∀ {s : Engine} {cur : Timer}, s.pc = PC.tickSleep cur → s.paused = false →
        s.running = true →
        microStep s = some
          ({ s with
              timers := writeBack ({ cur with
                remaining_seconds := cur.remaining_seconds - 1 }) s.timers
              pc := PC.atInner ({ cur with
                remaining_seconds := cur.remaining_seconds - 1 }) },
            [Event.tick ({ cur with
              remaining_seconds := cur.remaining_seconds - 1 })])) := by
  refine ⟨?_, ?_, ?_, ?_, ?_⟩
  · intro s
    by_cases hc : s.running = false ∨ s.paused = true
    · rw [pause_fail hc]
    · push_neg at hc
      obtain ⟨hr0, hp0⟩ := hc
      have hr : s.running = true := by revert hr0; cases s.running <;> simp
      have hp : s.paused = false := by revert hp0; cases s.paused <;> simp
      rcases ht : s.timers with _ | ⟨h0, t0⟩
      · rw [pause_nohead hr hp ht]
        simp [ht]
      · rw [pause_head hr hp ht]
        simp
  · intro s
    by_cases hc : s.running = false ∨ s.paused = true
    · rw [pause_fail hc]
      rfl
    · push_neg at hc
      obtain ⟨hr0, hp0⟩ := hc
      have hr : s.running = true := by revert hr0; cases s.running <;> simp
      have hp : s.paused = false := by revert hp0; cases s.paused <;> simp
      rcases ht : s.timers with _ | ⟨h0, t0⟩
      · rw [pause_nohead hr hp ht]
        rfl
      · rw [pause_head hr hp ht]
        rfl
  · intro s s' es hs hp hm
    have hinv := reach_inv hs
    have hsync := reach_sync hs
    cases hpc : s.pc with
    | off =>
      rw [microStep, hpc] at hm
      exact absurd hm (by simp)
    | created =>
      simp only [microStep, hpc] at hm
      rcases ht : s.timers with _ | ⟨h0, t0⟩
      · rw [outerStep_nil ht] at hm
        obtain rfl := step_out hm
        have hes := events_out hm
        refine ⟨by rw [hes]; rfl, ?_⟩
        intro t' ht'
        simp only [tailStep] at ht'
        rw [ht] at ht'
        simp at ht'
      · by_cases hr : s.running = true
        · rw [outerStep_head ht hr] at hm
          obtain rfl := step_out hm
          have hes := events_out hm
          refine ⟨by rw [hes]; rfl, ?_⟩
          intro t' ht'
          simp only at ht'
          rcases List.mem_cons.mp ht' with rfl | ht'
          · exact ⟨h0, List.mem_cons_self h0 t0, rfl, rfl⟩
          · exact ⟨t', List.mem_cons_of_mem h0 ht', rfl, rfl⟩
        · rw [outerStep_stopped (by simpa using hr)] at hm
          obtain rfl := step_out hm
          have hes := events_out hm
          refine ⟨by rw [hes]; rfl, ?_⟩
          intro t' ht'
          simp only [tailStep] at ht'
          exact ⟨t', ht ▸ ht', rfl, rfl⟩
    | atOuter =>
      simp only [microStep, hpc] at hm
      rcases ht : s.timers with _ | ⟨h0, t0⟩
      · rw [outerStep_nil ht] at hm
        obtain rfl := step_out hm
        have hes := events_out hm
        refine ⟨by rw [hes]; rfl, ?_⟩
        intro t' ht'
        simp only [tailStep] at ht'
        rw [ht] at ht'
        simp at ht'
      · by_cases hr : s.running = true
        · rw [outerStep_head ht hr] at hm
          obtain rfl := step_out hm
          have hes := events_out hm
          refine ⟨by rw [hes]; rfl, ?_⟩
          intro t' ht'
          simp only at ht'
          rcases List.mem_cons.mp ht' with rfl | ht'
          · exact ⟨h0, List.mem_cons_self h0 t0, rfl, rfl⟩
          · exact ⟨t', List.mem_cons_of_mem h0 ht', rfl, rfl⟩
        · rw [outerStep_stopped (by simpa using hr)] at hm
          obtain rfl := step_out hm
          have hes := events_out hm
          refine ⟨by rw [hes]; rfl, ?_⟩
          intro t' ht'
          simp only [tailStep] at ht'
          exact ⟨t', ht ▸ ht', rfl, rfl⟩
    | atInner cur0 =>
      have hr : s.running = true := hinv.run_pc (by rw [hpc]; simp)
      have hs0 : ∀ t ∈ s.timers, t.id = cur0.id → t = cur0 :=
        hsync cur0 (by rw [hpc]; rfl)
      simp only [microStep, hpc] at hm
      by_cases hrem : 0 < cur0.remaining_seconds
      · rw [innerStep_poll hrem hr hp] at hm
        obtain rfl := step_out hm
        have hes := events_out hm
        exact ⟨by rw [hes]; rfl, fun t' ht' => ⟨t', ht', rfl, rfl⟩⟩
      · rw [innerStep_done hrem hr] at hm
        by_cases hal : cur0.alarm_enabled = true
        · rw [completeStep_alarm hal] at hm
          obtain rfl := step_out hm
          have hes := events_out hm
          refine ⟨by rw [hes]; rfl, ?_⟩
          intro t' ht'
          simp only at ht'
          rcases mem_writeBack_strong ht' with ⟨rfl, u, hu, huid⟩ | ht'
          · exact ⟨u, hu, hs0 u hu huid ▸ rfl, hs0 u hu huid ▸ rfl⟩
          · exact ⟨t', ht', rfl, rfl⟩
        · rw [completeStep_noalarm (by simpa using hal)] at hm
          obtain rfl := step_out hm
          have hes := events_out hm
          refine ⟨by rw [hes]; rfl, ?_⟩
          intro t' ht'
          simp only at ht'
          rcases mem_writeBack_strong ht' with ⟨rfl, u, hu, huid⟩ | ht'
          · exact ⟨u, hu, hs0 u hu huid ▸ rfl, hs0 u hu huid ▸ rfl⟩
          · exact ⟨t', ht', rfl, rfl⟩
    | pausePollSleep cur0 =>
      simp only [microStep, hpc] at hm
      obtain rfl := step_out hm
      have hes := events_out hm
      exact ⟨by rw [hes]; rfl, fun t' ht' => ⟨t', ht', rfl, rfl⟩⟩
    | tickSleep cur0 =>
      simp only [microStep, hpc] at hm
      rw [tickResume_skip (fun hc => by rw [hp] at hc; simp at hc)] at hm
      obtain rfl := step_out hm
      have hes := events_out hm
      exact ⟨by rw [hes]; rfl, fun t' ht' => ⟨t', ht', rfl, rfl⟩⟩
    | alarmSleep cur0 =>
      simp only [microStep, hpc] at hm
      obtain rfl := step_out hm
      have hes := events_out hm
      exact ⟨by rw [hes]; rfl, fun t' ht' => ⟨t', ht', rfl, rfl⟩⟩
    | atPop cur0 =>
      simp only [microStep, hpc] at hm
      rcases ht : s.timers with _ | ⟨h0, t0⟩
      · rw [popStep_nil ht] at hm
        obtain rfl := step_out hm
        have hes := events_out hm
        refine ⟨by rw [hes]; rfl, ?_⟩
        intro t' ht'
        simp at ht'
      · by_cases hidm : h0.id = cur0.id
        · rw [popStep_hit ht hidm] at hm
          obtain rfl := step_out hm
          have hes := events_out hm
          refine ⟨by rw [hes]; rfl, ?_⟩
          intro t' ht'
          simp only at ht'
          exact ⟨t', List.mem_cons_of_mem h0 ht', rfl, rfl⟩
        · rw [popStep_miss ht hidm] at hm
          obtain rfl := step_out hm
          have hes := events_out hm
          refine ⟨by rw [hes]; rfl, ?_⟩
          intro t' ht'
          simp only at ht'
          exact ⟨t', ht', rfl, rfl⟩
  · intro s hp he
    exact start_resume he hp
  · intro s cur hpc hp hr
    simp only [microStep, hpc]
    rw [tickResume_tick hp hr]

/-- Witness for the amended C5 on a concrete paused engine. -/
theorem c5_pause_resume_witness :
    ((pause (drain 2 (c3Engine 3)).1).1.timers.map
        fun t => (t.id, t.remaining_seconds)) =
      ((drain 2 (c3Engine 3)).1.timers.map fun t => (t.id, t.remaining_seconds)) ∧
      start (pause (drain 2 (c3Engine 3)).1).1 =
        ({ (pause (drain 2 (c3Engine 3)).1).1 with paused := false },
          [Event.stateChange], true) :=
  ⟨c5_pause_resume_amended.1 (drain 2 (c3Engine 3)).1,
    c5_pause_resume_amended.2.2.2.1 (pause (drain 2 (c3Engine 3)).1).1
      (by decide) (by decide)⟩

/-- C8: `remove_timer(id)` reports success exactly when a timer with
that id is queued, and on success removes the first such timer wherever
it sits (including the head); the outer loop header always takes the
current queue head as the next running timer; and the post-completion
removal step pops the head exactly when the head still carries the id
of the timer the loop just finished. -/
theorem c8_remove_timer :
    (∀ (id : Nat) (s : Engine),
        ((removeTimer id s).2.2 = true ↔ ∃ t ∈ s.timers, t.id = id)) ∧
      (∀ (id : Nat) (s : Engine), (removeTimer id s).2.2 = true →
        ∃ pre t post, s.timers = pre ++ t :: post ∧ t.id = id ∧
          (∀ u ∈ pre, u.id ≠ id) ∧ (removeTimer id s).1.timers = pre ++ post) ∧
      (∀ {s : Engine} {h0 : Timer} {t0 : List Timer}, s.pc = PC.atOuter →
        s.timers = h0 :: t0 → s.running = true →
        microStep s = some
          ({ s with
              timers := { h0 with state := TimerState.running } :: t0
              pc := PC.atInner ({ h0 with state := TimerState.running }) },
            [Event.stateChange])) ∧
      (∀ {s : Engine} {cur h0 : Timer} {t0 : List Timer}, s.pc = PC.atPop cur →
        s.timers = h0 :: t0 →
        microStep s = some
          ({ s with
              timers := if h0.id = cur.id then t0 else h0 :: t0
              pc := PC.atOuter },
            [Event.stateChange])) := by
  refine ⟨?_, ?_, ?_, ?_⟩
  · intro id s
    by_cases hf : (removeTimerList id s.timers).2 = true
    · rw [removeTimer_found hf]
      simpa using (removeTimerList_found_iff id s.timers).mp hf
    · have hf' : (removeTimerList id s.timers).2 = false := by simpa using hf
      rw [removeTimer_missing hf']
      constructor
      · intro h
        exact absurd h (by simp)
      · intro h
        exact absurd ((removeTimerList_found_iff id s.timers).mpr h)
          (by simp [hf'])
  · intro id s h
    by_cases hf : (removeTimerList id s.timers).2 = true
    · obtain ⟨pre, t, post, hl, hti, hpre, hres⟩ := removeTimerList_found hf
      refine ⟨pre, t, post, hl, hti, hpre, ?_⟩
      rw [removeTimer_found hf]
      exact hres
    · have hf' : (removeTimerList id s.timers).2 = false := by simpa using hf
      rw [removeTimer_missing hf'] at h
      simp at h
  · intro s h0 t0 hpc ht hr
    simp only [microStep, hpc]
    rw [outerStep_head ht hr]
  · intro s cur h0 t0 hpc ht
    simp only [microStep, hpc]
    by_cases hidm : h0.id = cur.id
    · rw [popStep_hit ht hidm, if_pos hidm]
    · rw [popStep_miss ht hidm, if_neg hidm]

/-- Witness for C8: a successful removal and the concrete pop of a
completed head. -/
theorem c8_remove_timer_witness :
    (removeTimer 0 (addTimer "A" 5 true initEngine).1).2.2 = true ∧
      microStep (drain 2 (c3Engine 0)).1 =
        some ({ (drain 2 (c3Engine 0)).1 with
            timers := if (c3Done 0).id = (c3Done 0).id then [] else [c3Done 0]
            pc := PC.atOuter },
          [Event.stateChange]) :=
  ⟨(c8_remove_timer.1 0 (addTimer "A" 5 true initEngine).1).mpr
      ⟨mkTimer 0 "A" 5 5 true TimerState.waiting, by simp [addTimer, initEngine], rfl⟩,
    c8_remove_timer.2.2.2 (by decide) (by decide)⟩

/-! ## The binary64 rounding model: basic lemmas -/

theorem rnEven_cases (q : Rat) :
    rnEven q = ⌊q⌋ ∨ (rnEven q = ⌊q⌋ + 1 ∧ 1 / 2 ≤ Int.fract q) := by
  unfold rnEven
  by_cases h1 : Int.fract q < 1 / 2
  · rw [if_pos h1]
    exact Or.inl rfl
  · rw [if_neg h1]
    have hge : 1 / 2 ≤ Int.fract q := not_lt.mp h1
    by_cases h2 : 1 / 2 < Int.fract q
    · rw [if_pos h2]
      exact Or.inr ⟨rfl, hge⟩
    · rw [if_neg h2]
      by_cases h3 : 2 ∣ ⌊q⌋
      · rw [if_pos h3]
        exact Or.inl rfl
      · rw [if_neg h3]
        exact Or.inr ⟨rfl, hge⟩

theorem floor_lt_of_fract_pos {q : Rat} (h : 0 < Int.fract q) : (⌊q⌋ : Rat) < q := by
  have hd : q - ⌊q⌋ = Int.fract q := Int.self_sub_floor q
  linarith

theorem rnEven_le_of_le {q : Rat} {n : Int} (h : q ≤ (n : Rat)) : rnEven q ≤ n := by
  have hf : ⌊q⌋ ≤ n := by
    have h2 := Int.floor_le_floor h
    rwa [Int.floor_intCast] at h2
  rcases rnEven_cases q with h1 | ⟨h1, h2⟩
  · omega
  · have h3 : (⌊q⌋ : Rat) < q :=
      floor_lt_of_fract_pos (lt_of_lt_of_le (by norm_num) h2)
    have h4 : ⌊q⌋ < n := by exact_mod_cast lt_of_lt_of_le h3 h
    omega

theorem le_rnEven_of_le {q : Rat} {n : Int} (h : (n : Rat) ≤ q) : n ≤ rnEven q := by
  have hf : n ≤ ⌊q⌋ := Int.le_floor.mpr h
  rcases rnEven_cases q with h1 | ⟨h1, _⟩ <;> omega

theorem rnEven_intCast (n : Int) : rnEven (n : Rat) = n := by
  unfold rnEven
  rw [Int.fract_intCast, Int.floor_intCast]
  norm_num

theorem fract_mono_of_floor_eq {q1 q2 : Rat} (h : q1 ≤ q2) (hf : ⌊q1⌋ = ⌊q2⌋) :
    Int.fract q1 ≤ Int.fract q2 := by
  have d1 : q1 - ⌊q1⌋ = Int.fract q1 := Int.self_sub_floor q1
  have d2 : q2 - ⌊q2⌋ = Int.fract q2 := Int.self_sub_floor q2
  have hc : ((⌊q1⌋ : Int) : Rat) = ((⌊q2⌋ : Int) : Rat) := by exact_mod_cast hf
  linarith

theorem rnEven_mono {q1 q2 : Rat} (h : q1 ≤ q2) : rnEven q1 ≤ rnEven q2 := by
  by_cases hff : ⌊q1⌋ < ⌊q2⌋
  · rcases rnEven_cases q1 with h1 | ⟨h1, _⟩ <;>
      rcases rnEven_cases q2 with h2 | ⟨h2, _⟩ <;> omega
  · have hfe : ⌊q1⌋ = ⌊q2⌋ := le_antisymm (Int.floor_le_floor h) (not_lt.mp hff)
    have hfr := fract_mono_of_floor_eq h hfe
    rcases rnEven_cases q1 with h1 | ⟨h1, hge1⟩
    · rcases rnEven_cases q2 with h2 | ⟨h2, _⟩ <;> omega
    · have hge2 : 1 / 2 ≤ Int.fract q2 := le_trans hge1 hfr
      by_cases hgt2 : 1 / 2 < Int.fract q2
      · have h2 : rnEven q2 = ⌊q2⌋ + 1 := by
          unfold rnEven
          rw [if_neg (not_lt.mpr hge2), if_pos hgt2]
        omega
      · have he2 : Int.fract q2 = 1 / 2 := le_antisymm (not_lt.mp hgt2) hge2
        have he1 : Int.fract q1 = 1 / 2 := le_antisymm (he2 ▸ hfr) hge1
        have e1 : rnEven q1 = if 2 ∣ ⌊q1⌋ then ⌊q1⌋ else ⌊q1⌋ + 1 := by
          unfold rnEven
          rw [if_neg (not_lt.mpr hge1), if_neg (by rw [he1]; exact lt_irrefl _)]
        have e2 : rnEven q2 = if 2 ∣ ⌊q2⌋ then ⌊q2⌋ else ⌊q2⌋ + 1 := by
          unfold rnEven
          rw [if_neg (not_lt.mpr hge2), if_neg (by rw [he2]; exact lt_irrefl _)]
        rw [hfe] at e1
        by_cases hpar : 2 ∣ ⌊q2⌋
        · rw [if_pos hpar] at e1 e2
          omega
        · rw [if_neg hpar] at e1 e2
          omega

theorem div_nonpos_of_np_nn {a b : Rat} (ha : a ≤ 0) (hb : 0 ≤ b) : a / b ≤ 0 := by
  rw [div_eq_mul_inv]
  calc a * b⁻¹ ≤ 0 * b⁻¹ := mul_le_mul_of_nonneg_right ha (inv_nonneg.mpr hb)
  _ = 0 := zero_mul _

theorem two_zpow_pos (e : Int) : (0 : Rat) < 2 ^ e := by positivity

theorem fRound_zero : fRound 0 = 0 := by simp [fRound]

theorem fRound_nonneg {x : Rat} (h : 0 ≤ x) : 0 ≤ fRound x := by
  unfold fRound
  split
  · exact le_refl 0
  · have hdiv : (0 : Rat) ≤ x / 2 ^ ulpExp x :=
      div_nonneg h (le_of_lt (two_zpow_pos _))
    have h0 : (0 : Int) ≤ rnEven (x / 2 ^ ulpExp x) :=
      le_rnEven_of_le (by exact_mod_cast hdiv)
    exact mul_nonneg (by exact_mod_cast h0) (le_of_lt (two_zpow_pos _))

theorem fRound_nonpos {x : Rat} (h : x ≤ 0) : fRound x ≤ 0 := by
  unfold fRound
  split
  · exact le_refl 0
  · have hdiv : x / 2 ^ ulpExp x ≤ 0 :=
      div_nonpos_of_np_nn h (le_of_lt (two_zpow_pos _))
    have h0 : rnEven (x / 2 ^ ulpExp x) ≤ (0 : Int) :=
      rnEven_le_of_le (by exact_mod_cast hdiv)
    have h1 : (rnEven (x / 2 ^ ulpExp x) : Rat) ≤ 0 := by exact_mod_cast h0
    calc (rnEven (x / 2 ^ ulpExp x) : Rat) * 2 ^ ulpExp x
        ≤ 0 * 2 ^ ulpExp x :=
          mul_le_mul_of_nonneg_right h1 (le_of_lt (two_zpow_pos _))
      _ = 0 := zero_mul _

theorem fRound_mono {x y : Rat} (hx : 0 ≤ x) (hxy : x ≤ y) : fRound x ≤ fRound y := by
  rcases eq_or_lt_of_le hx with hx0 | hx0
  · rw [← hx0, fRound_zero]
    exact fRound_nonneg (le_trans hx hxy)
  · have hy0 : (0 : Rat) < y := lt_of_lt_of_le hx0 hxy
    have hxne : x ≠ 0 := ne_of_gt hx0
    have hyne : y ≠ 0 := ne_of_gt hy0
    rw [fRound, fRound, if_neg hxne, if_neg hyne]
    have hlog : Int.log 2 |x| ≤ Int.log 2 |y| := by
      rw [abs_of_pos hx0, abs_of_pos hy0]
      exact Int.log_mono_right hx0 hxy
    have helow : (-1074 : Int) ≤ ulpExp x := le_max_left _ _
    have hexlb : Int.log 2 |x| - 52 ≤ ulpExp x := le_max_right _ _
    have he : ulpExp x ≤ ulpExp y := max_le_max (le_refl _) (by omega)
    rcases eq_or_lt_of_le he with heq | hlt
    · rw [← heq]
      have hdiv : x / 2 ^ ulpExp x ≤ y / 2 ^ ulpExp x :=
        (div_le_div_iff_of_pos_right (two_zpow_pos _)).mpr hxy
      have hm := rnEven_mono hdiv
      exact mul_le_mul_of_nonneg_right (by exact_mod_cast hm)
        (le_of_lt (two_zpow_pos _))
    · have hymax : ulpExp y = max (-1074) (Int.log 2 |y| - 52) := rfl
      have he2 : ulpExp y = Int.log 2 |y| - 52 := by
        rcases max_cases (-1074 : Int) (Int.log 2 |y| - 52) with ⟨hc1, _⟩ | ⟨hc1, _⟩
        · rw [hymax, hc1] at hlt
          omega
        · rw [hymax, hc1]
      set k := Int.log 2 |y| with hkdef
      have hkx : Int.log 2 |x| < k := by omega
      have hxltk : x < 2 ^ k := by
        have h1 : x ≤ |x| := le_abs_self x
        have h2 : |x| < 2 ^ (Int.log 2 |x| + 1) :=
          Int.lt_zpow_succ_log_self (by norm_num) |x|
        have h3 : (2 : Rat) ^ (Int.log 2 |x| + 1) ≤ 2 ^ k :=
          zpow_le_zpow_right₀ (by norm_num) (by omega)
        calc x ≤ |x| := h1
          _ < 2 ^ (Int.log 2 |x| + 1) := h2
          _ ≤ 2 ^ k := h3
      have hyk : (2 : Rat) ^ k ≤ y := by
        have h1 : (2 : Rat) ^ k ≤ |y| :=
          Int.zpow_log_le_self (by norm_num) (abs_pos.mpr hyne)
        rwa [abs_of_pos hy0] at h1
      have hA : (rnEven (x / 2 ^ ulpExp x) : Rat) * 2 ^ ulpExp x ≤ 2 ^ k := by
        have hn0 : (0 : Int) ≤ k - ulpExp x := by omega
        have hcast : (((2 : Int) ^ (k - ulpExp x).toNat : Int) : Rat) =
            2 ^ (k - ulpExp x) := by
          push_cast
          rw [← zpow_natCast (2 : Rat), Int.toNat_of_nonneg hn0]
        have hle : x / 2 ^ ulpExp x ≤ (((2 : Int) ^ (k - ulpExp x).toNat : Int) : Rat) := by
          rw [hcast, div_le_iff₀ (two_zpow_pos _),
            ← zpow_add₀ (by norm_num : (2 : Rat) ≠ 0)]
          have he3 : k - ulpExp x + ulpExp x = k := by ring
          rw [he3]
          exact le_of_lt hxltk
        have hrn := rnEven_le_of_le hle
        calc (rnEven (x / 2 ^ ulpExp x) : Rat) * 2 ^ ulpExp x
            ≤ (((2 : Int) ^ (k - ulpExp x).toNat : Int) : Rat) * 2 ^ ulpExp x :=
              mul_le_mul_of_nonneg_right (by exact_mod_cast hrn)
                (le_of_lt (two_zpow_pos _))
          _ = 2 ^ k := by
              rw [hcast, ← zpow_add₀ (by norm_num : (2 : Rat) ≠ 0)]
              congr 1
              ring
      have hB : (2 : Rat) ^ k ≤ (rnEven (y / 2 ^ ulpExp y) : Rat) * 2 ^ ulpExp y := by
        rw [he2]
        have hcast : (((2 : Int) ^ 52 : Int) : Rat) = (2 : Rat) ^ (52 : Int) := by
          norm_num
        have hle : (((2 : Int) ^ 52 : Int) : Rat) ≤ y / 2 ^ (k - 52) := by
          rw [hcast, le_div_iff₀ (two_zpow_pos _),
            ← zpow_add₀ (by norm_num : (2 : Rat) ≠ 0)]
          have he3 : (52 : Int) + (k - 52) = k := by ring
          rw [he3]
          exact hyk
        have hrn := le_rnEven_of_le hle
        calc (2 : Rat) ^ k = (((2 : Int) ^ 52 : Int) : Rat) * 2 ^ (k - 52) := by
              rw [hcast, ← zpow_add₀ (by norm_num : (2 : Rat) ≠ 0)]
              congr 1
              ring
          _ ≤ (rnEven (y / 2 ^ (k - 52)) : Rat) * 2 ^ (k - 52) :=
              mul_le_mul_of_nonneg_right (by exact_mod_cast hrn)
                (le_of_lt (two_zpow_pos _))
      exact le_trans hA hB

theorem log2_eq_of_bounds {x : Rat} {k : Int} (hx : 0 < x) (h1 : 2 ^ k ≤ x)
    (h2 : x < 2 ^ (k + 1)) : Int.log 2 x = k := by
  have ha : k ≤ Int.log 2 x := by
    apply (Int.zpow_le_iff_le_log (by norm_num) hx).mp
    exact_mod_cast h1
  have hb : Int.log 2 x < k + 1 := by
    apply (Int.lt_zpow_iff_log_lt (by norm_num) hx).mp
    exact_mod_cast h2
  omega

theorem ulpExp_eq_of_bounds {x : Rat} {k : Int} (hx : 0 < x) (hk : -1022 ≤ k)
    (h1 : 2 ^ k ≤ x) (h2 : x < 2 ^ (k + 1)) : ulpExp x = k - 52 := by
  unfold ulpExp
  rw [abs_of_pos hx, log2_eq_of_bounds hx h1 h2]
  exact max_eq_right (by omega)

theorem fRound_eval {x : Rat} {k m : Int} (hx : 0 < x) (hk : -1022 ≤ k)
    (h1 : 2 ^ k ≤ x) (h2 : x < 2 ^ (k + 1))
    (hm : rnEven (x / 2 ^ (k - 52)) = m) :
    fRound x = (m : Rat) * 2 ^ (k - 52) := by
  rw [fRound, if_neg (ne_of_gt hx), ulpExp_eq_of_bounds hx hk h1 h2, hm]

theorem fRound_zpow {k : Int} (hk : -1022 ≤ k) :
    fRound ((2 : Rat) ^ k) = (2 : Rat) ^ k := by
  have hq : (2 : Rat) ^ k / 2 ^ (k - 52) = (((2 : Int) ^ 52 : Int) : Rat) := by
    rw [← zpow_sub₀ (by norm_num : (2 : Rat) ≠ 0)]
    have h3 : k - (k - 52) = (52 : Int) := by ring
    rw [h3]
    norm_num
  have hm : rnEven ((2 : Rat) ^ k / 2 ^ (k - 52)) = 2 ^ 52 := by
    rw [hq, rnEven_intCast]
  have heval := fRound_eval (two_zpow_pos k) hk (le_refl _)
    (zpow_lt_zpow_right₀ (by norm_num) (by omega)) hm
  rw [heval]
  have hc : (((2 : Int) ^ 52 : Int) : Rat) = (2 : Rat) ^ (52 : Int) := by norm_num
  rw [hc, ← zpow_add₀ (by norm_num : (2 : Rat) ≠ 0)]
  congr 1
  ring

theorem fRound_one : fRound (1 : Rat) = 1 := by
  have h := fRound_zpow (by norm_num : (-1022 : Int) ≤ 0)
  rwa [zpow_zero] at h

theorem fRound_le_one {x : Rat} (h0 : 0 ≤ x) (h1 : x ≤ 1) : fRound x ≤ 1 := by
  have h := fRound_mono h0 h1
  rwa [fRound_one] at h

theorem fRound_sub_ulp :
    fRound (1 - (2 : Rat) ^ (-53 : Int)) = 1 - (2 : Rat) ^ (-53 : Int) := by
  have hx : (0 : Rat) < 1 - (2 : Rat) ^ (-53 : Int) := by norm_num
  have harg : (1 - (2 : Rat) ^ (-53 : Int)) / 2 ^ ((-1 : Int) - 52) =
      (((2 ^ 53 - 1 : Int)) : Rat) := by
    push_cast
    norm_num
  have hm : rnEven ((1 - (2 : Rat) ^ (-53 : Int)) / 2 ^ ((-1 : Int) - 52)) =
      2 ^ 53 - 1 := by
    rw [harg, rnEven_intCast]
  have heval := fRound_eval hx (by norm_num : (-1022 : Int) ≤ -1) (by norm_num)
    (by norm_num) hm
  rw [heval]
  push_cast
  norm_num

theorem fRound_near_one : fRound (1 - (2 : Rat) ^ (-60 : Int)) = 1 := by
  have hx : (0 : Rat) < 1 - (2 : Rat) ^ (-60 : Int) := by norm_num
  have hfl : ⌊(1 - (2 : Rat) ^ (-60 : Int)) / 2 ^ ((-1 : Int) - 52)⌋ = 2 ^ 53 - 1 := by
    rw [Int.floor_eq_iff]
    constructor
    · push_cast
      norm_num
    · push_cast
      norm_num
  have hfr : Int.fract ((1 - (2 : Rat) ^ (-60 : Int)) / 2 ^ ((-1 : Int) - 52)) =
      127 / 128 := by
    have hd := Int.self_sub_floor
      ((1 - (2 : Rat) ^ (-60 : Int)) / 2 ^ ((-1 : Int) - 52))
    rw [hfl] at hd
    rw [← hd]
    push_cast
    norm_num
  have hm : rnEven ((1 - (2 : Rat) ^ (-60 : Int)) / 2 ^ ((-1 : Int) - 52)) = 2 ^ 53 := by
    unfold rnEven
    rw [hfr, hfl]
    norm_num
  have heval := fRound_eval hx (by norm_num : (-1022 : Int) ≤ -1) (by norm_num)
    (by norm_num) hm
  rw [heval]
  push_cast
  norm_num

/-- C9 counterexample: the timer with `duration_seconds = 2 ^ 60` and
`remaining_seconds = 1` satisfies the claim's precondition, yet its
`progress()` is exactly `1.0` with a nonzero `remaining_seconds`: the
true quotient `1 / 2 ^ 60` survives the first rounding as `2 ^ (-60)`,
but `1.0 - 2 ^ (-60)` is closer to `1.0` than to the largest double
below `1.0`, so the subtraction rounds up to exactly `1.0` — refuting
"equals 1.0 exactly when remaining_seconds == 0" as stated. -/
theorem c9_progress_counterexample :
    (0 : Int) ≤ (mkTimer 0 "T" (2 ^ 60) 1 true TimerState.running).remaining_seconds ∧
      (mkTimer 0 "T" (2 ^ 60) 1 true TimerState.running).remaining_seconds ≤
        (mkTimer 0 "T" (2 ^ 60) 1 true TimerState.running).duration_seconds ∧
      Timer.progress (mkTimer 0 "T" (2 ^ 60) 1 true TimerState.running) = 1 ∧
      (mkTimer 0 "T" (2 ^ 60) 1 true TimerState.running).remaining_seconds ≠ 0 := by
  refine ⟨by norm_num [mkTimer], by norm_num [mkTimer], ?_, by norm_num [mkTimer]⟩
  have ht : (mkTimer 0 "T" (2 ^ 60) 1 true TimerState.running).remaining_seconds = 1 := by
    norm_num [mkTimer]
  have hd : (mkTimer 0 "T" (2 ^ 60) 1 true TimerState.running).duration_seconds =
      2 ^ 60 := by
    norm_num [mkTimer]
  rw [Timer.progress, if_neg (by rw [hd]; norm_num), ht, hd]
  have harg : ((1 : Int) : Rat) / (((2 ^ 60 : Int)) : Rat) = (2 : Rat) ^ (-60 : Int) := by
    push_cast
    norm_num
  rw [harg, fRound_zpow (by norm_num : (-1022 : Int) ≤ -60), fRound_near_one]

/-- C9 (amended): `progress()` is `1.0` when `duration_seconds == 0`
and otherwise the correctly rounded binary64 value of
`1.0 - (remaining_seconds / duration_seconds)` (itself correctly
rounded); under `0 <= remaining <= duration` the result lies in
`[0, 1]`, equals `1.0` when `remaining_seconds = 0` — and exactly then
provided `duration_seconds ≤ 2 ^ 53 `, the bound the rounding forces —
and is monotonically non-decreasing across consecutive ticks of the
same timer. -/
theorem c9_progress_amended (t : Timer) :
    (t.duration_seconds = 0 → t.progress = 1) ∧
      (t.duration_seconds ≠ 0 →
        t.progress =
          fRound (1 - fRound ((t.remaining_seconds : Rat) / (t.duration_seconds : Rat)))) ∧
      (0 ≤ t.remaining_seconds → t.remaining_seconds ≤ t.duration_seconds →
        (0 ≤ t.progress ∧ t.progress ≤ 1 ∧
          (t.remaining_seconds = 0 → t.progress = 1) ∧
          (t.duration_seconds ≤ 2 ^ 53 → (t.progress = 1 ↔ t.remaining_seconds = 0)) ∧
          t.progress ≤
            Timer.progress
              { t with remaining_seconds := t.remaining_seconds - 1 })) := by
  refine ⟨fun hd => by simp [Timer.progress, hd], fun hd => by simp [Timer.progress, hd],
    fun h0 h1 => ?_⟩
  by_cases hd : t.duration_seconds = 0
  · have hr0 : t.remaining_seconds = 0 := le_antisymm (hd ▸ h1) h0
    refine ⟨by simp [Timer.progress, hd], by simp [Timer.progress, hd],
      fun _ => by simp [Timer.progress, hd], fun _ => ?_, by simp [Timer.progress, hd]⟩
    simp [Timer.progress, hd, hr0]
  · have hdpos : 0 < t.duration_seconds := lt_of_le_of_ne (le_trans h0 h1) (Ne.symm hd)
    have hdq : (0 : Rat) < (t.duration_seconds : Rat) := by exact_mod_cast hdpos
    have hrq : (0 : Rat) ≤ (t.remaining_seconds : Rat) := by exact_mod_cast h0
    have hle : (t.remaining_seconds : Rat) ≤ (t.duration_seconds : Rat) := by
      exact_mod_cast h1
    have hq0 : (0 : Rat) ≤ (t.remaining_seconds : Rat) / (t.duration_seconds : Rat) :=
      div_nonneg hrq (le_of_lt hdq)
    have hq1 : (t.remaining_seconds : Rat) / (t.duration_seconds : Rat) ≤ 1 :=
      (div_le_one hdq).mpr hle
    have hi0 : (0 : Rat) ≤
        fRound ((t.remaining_seconds : Rat) / (t.duration_seconds : Rat)) :=
      fRound_nonneg hq0
    have hi1 : fRound ((t.remaining_seconds : Rat) / (t.duration_seconds : Rat)) ≤ 1 :=
      fRound_le_one hq0 hq1
    have hzero : t.remaining_seconds = 0 → t.progress = 1 := by
      intro hr0
      rw [Timer.progress, if_neg hd, hr0]
      norm_num [fRound_zero, fRound_one]
    refine ⟨?_, ?_, hzero, ?_, ?_⟩
    · rw [Timer.progress, if_neg hd]
      exact fRound_nonneg (by linarith)
    · rw [Timer.progress, if_neg hd]
      exact fRound_le_one (by linarith) (by linarith)
    · intro hdle
      refine ⟨?_, hzero⟩
      intro hp1
      by_contra hr0
      have hr1 : (1 : Rat) ≤ (t.remaining_seconds : Rat) := by
        exact_mod_cast (by omega : (1 : Int) ≤ t.remaining_seconds)
      have hdle2 : ((t.duration_seconds : Int) : Rat) ≤ 2 ^ 53 := by
        exact_mod_cast hdle
      have hql : (2 : Rat) ^ (-53 : Int) ≤
          (t.remaining_seconds : Rat) / (t.duration_seconds : Rat) := by
        have hstep1 : (2 : Rat) ^ (-53 : Int) = 1 / 2 ^ (53 : Nat) := by norm_num
        have hstep2 : (1 : Rat) / 2 ^ (53 : Nat) ≤ 1 / (t.duration_seconds : Rat) := by
          apply one_div_le_one_div_of_le hdq
          exact_mod_cast hdle2
        have hstep3 : (1 : Rat) / (t.duration_seconds : Rat) ≤
            (t.remaining_seconds : Rat) / (t.duration_seconds : Rat) :=
          (div_le_div_iff_of_pos_right hdq).mpr hr1
        linarith
      have hil : (2 : Rat) ^ (-53 : Int) ≤
          fRound ((t.remaining_seconds : Rat) / (t.duration_seconds : Rat)) := by
        have h2 := fRound_mono (le_of_lt (two_zpow_pos _)) hql
        rwa [fRound_zpow (by norm_num : (-1022 : Int) ≤ -53)] at h2
      have hup : Timer.progress t ≤ 1 - (2 : Rat) ^ (-53 : Int) := by
        rw [Timer.progress, if_neg hd]
        have h2 := fRound_mono (by linarith : (0 : Rat) ≤
          1 - fRound ((t.remaining_seconds : Rat) / (t.duration_seconds : Rat)))
          (by linarith : 1 -
            fRound ((t.remaining_seconds : Rat) / (t.duration_seconds : Rat)) ≤
            1 - (2 : Rat) ^ (-53 : Int))
        rwa [fRound_sub_ulp] at h2
      rw [hp1] at hup
      norm_num at hup
    · have hcast : ((t.remaining_seconds - 1 : Int) : Rat) / (t.duration_seconds : Rat) =
          ((t.remaining_seconds : Rat) - 1) / (t.duration_seconds : Rat) := by
        push_cast
        ring
      rw [Timer.progress, Timer.progress, if_neg hd,
        if_neg (show ¬({ t with remaining_seconds := t.remaining_seconds - 1 } :
          Timer).duration_seconds = 0 from hd), hcast]
      by_cases hr0 : t.remaining_seconds = 0
      · have hqz : (t.remaining_seconds : Rat) / (t.duration_seconds : Rat) = 0 := by
          rw [hr0]
          push_cast
          exact zero_div _
        have hq2 : ((t.remaining_seconds : Rat) - 1) / (t.duration_seconds : Rat) ≤ 0 := by
          apply div_nonpos_of_np_nn _ (le_of_lt hdq)
          rw [hr0]
          push_cast
          norm_num
        have hf2 : fRound (((t.remaining_seconds : Rat) - 1) /
            (t.duration_seconds : Rat)) ≤ 0 := fRound_nonpos hq2
        have hm2 := fRound_mono (by norm_num : (0 : Rat) ≤ 1)
          (by linarith : (1 : Rat) ≤ 1 -
            fRound (((t.remaining_seconds : Rat) - 1) / (t.duration_seconds : Rat)))
        rw [fRound_one] at hm2
        rw [hqz, fRound_zero, sub_zero, fRound_one]
        exact hm2
      · have hr1 : (1 : Rat) ≤ (t.remaining_seconds : Rat) := by
          exact_mod_cast (by omega : (1 : Int) ≤ t.remaining_seconds)
        have hq2 : (0 : Rat) ≤
            ((t.remaining_seconds : Rat) - 1) / (t.duration_seconds : Rat) :=
          div_nonneg (by linarith) (le_of_lt hdq)
        have hmon : ((t.remaining_seconds : Rat) - 1) / (t.duration_seconds : Rat) ≤
            (t.remaining_seconds : Rat) / (t.duration_seconds : Rat) :=
          (div_le_div_iff_of_pos_right hdq).mpr (by linarith)
        have hf2 := fRound_mono hq2 hmon
        exact fRound_mono (by linarith) (by linarith)

/-- Witness for the amended C9 on a concrete timer. -/
theorem c9_progress_amended_witness :
    0 ≤ (mkTimer 0 "A" 4 2 true TimerState.running).progress ∧
      (mkTimer 0 "A" 4 2 true TimerState.running).progress ≤ 1 :=
  let h := (c9_progress_amended (mkTimer 0 "A" 4 2 true TimerState.running)).2.2
    (by norm_num [mkTimer]) (by norm_num [mkTimer])
  ⟨h.1, h.2.1⟩

/-- C10: the dataclass `__post_init__` replaces a zero
`remaining_seconds` (the field default) by `duration_seconds`, so every
freshly constructed timer with positive duration starts with a nonzero
(full) countdown. -/
theorem c10_post_init :
    (∀ (id : Nat) (l : String) (d : Int) (al : Bool) (st : TimerState),
        (mkTimer id l d 0 al st).remaining_seconds = d) ∧
      (∀ (id : Nat) (l : String) (d r : Int) (al : Bool) (st : TimerState),
        0 < d → (mkTimer id l d r al st).remaining_seconds ≠ 0) := by
  constructor
  · intro id l d al st
    simp [mkTimer]
  · intro id l d r al st hd
    simp only [mkTimer]
    split
    · omega
    · assumption

/-- Witness for C10 on concrete constructions. -/
theorem c10_post_init_witness :
    (mkTimer 0 "x" 7 0 true TimerState.waiting).remaining_seconds = 7 ∧
      (mkTimer 0 "x" 3 2 true TimerState.waiting).remaining_seconds ≠ 0 :=
  ⟨c10_post_init.1 0 "x" 7 true TimerState.waiting,
    c10_post_init.2 0 "x" 3 2 true TimerState.waiting (by norm_num)⟩

end TimeBars
